import Mathlib

/-!
# Verification of the RoyalEscape sliding-block solver

A shallow embedding of the solver in `services/solverService` (grid constants
from `constants.ts`, data types from `types.ts`), together with theorems
settling the specification's claims about it.

Modelling conventions:
* JavaScript numbers holding grid coordinates are modelled as `Int`
  (coordinates go negative transiently inside `canMove`).
* The canonical key `grid.join('')` of the source is modelled as the
  underlying `List Int` of cell codes; since every cell code is a single
  digit (0..4), joining into a string is injective, so equality of keys is
  equality of these lists.
* The JS `Set<string>` of visited keys is modelled as a `List` of keys with
  membership; `Set.add` is modelled as `cons`.
* The JS array used as a queue with a moving `head` index is modelled as a
  `List` plus an explicit `head : Nat`.
* The `while` loop of `findSolution` is modelled with explicit fuel
  `MAX_ITERATIONS + 2`; because `head` grows by one per iteration and the
  loop aborts as soon as `head > MAX_ITERATIONS`, this fuel is never
  exhausted (proved below as a fuel-irrelevance theorem).
-/

/-- `BlockType` from `types.ts`. -/
inductive BlockType where
  | KING
  | VERTICAL
  | HORIZONTAL
  | PAWN
deriving DecidableEq, Repr

/-- `Direction` from `types.ts`. -/
inductive Direction where
  | UP
  | DOWN
  | LEFT
  | RIGHT
deriving DecidableEq, Repr

/-- `Block` from `types.ts` (the caller-facing piece record). -/
structure Block where
  id : String
  type : BlockType
  x : Int
  y : Int
  width : Int
  height : Int
  label : Option String
deriving DecidableEq, Repr

/-- `GRID_WIDTH` from `constants.ts`. -/
def GRID_WIDTH : Int := 4

/-- `GRID_HEIGHT` from `constants.ts`. -/
def GRID_HEIGHT : Int := 5

/-- `SimplifiedMove` from the solver module. -/
structure SimplifiedMove where
  blockIndex : Nat
  direction : Direction
deriving DecidableEq, Repr

/-- `SolverBlock` from the solver module: the five fields the solver copies
out of each caller `Block`. -/
structure SolverBlock where
  type : BlockType
  x : Int
  y : Int
  width : Int
  height : Int
deriving DecidableEq, Repr

instance : Inhabited SolverBlock := ⟨⟨BlockType.PAWN, 0, 0, 0, 0⟩⟩

/-- `SolverState` from the solver module: a board plus the path from the root. -/
structure SolverState where
  blocks : List SolverBlock
  path : List SimplifiedMove
deriving DecidableEq, Repr

instance : Inhabited SolverState := ⟨⟨[], []⟩⟩

/-- The per-kind cell code used by `encodeState`
(1=King, 2=Vertical, 3=Horizontal, 4=Pawn; 0 is an empty cell). -/
def codeOf : BlockType → Int
  | BlockType.KING => 1
  | BlockType.VERTICAL => 2
  | BlockType.HORIZONTAL => 3
  | BlockType.PAWN => 4

/-- One assignment `grid[idx] = code` on the `Int8Array` of `encodeState`.
A typed-array store whose index is out of range (negative or ≥ 20) is
silently discarded, hence the guard. -/
def writeCell (g : List Int) (idx : Int) (code : Int) : List Int :=
  if 0 ≤ idx ∧ idx < GRID_WIDTH * GRID_HEIGHT then g.set idx.toNat code else g

/-- The two nested `for` loops of `encodeState` stamping one block's cells
into the grid. -/
def writeBlock (g : List Int) (b : SolverBlock) : List Int :=
  (List.range b.height.toNat).foldl (fun g1 (dy : Nat) =>
    (List.range b.width.toNat).foldl (fun g2 (dx : Nat) =>
      writeCell g2 ((b.y + (dy : Int)) * GRID_WIDTH + (b.x + (dx : Int))) (codeOf b.type)) g1) g

/-- `encodeState` from the solver module: the canonical key of a board, a
20-cell grid of kind codes (the source joins it into a string; see the
header comment for why the list itself is an equivalent key). -/
def encodeState (blocks : List SolverBlock) : List Int :=
  blocks.foldl writeBlock (List.replicate (GRID_WIDTH * GRID_HEIGHT).toNat 0)

/-- `isSolved` from the solver module: the first King block sits at (1, 3). -/
def isSolved (blocks : List SolverBlock) : Bool :=
  match blocks.find? (fun b => b.type == BlockType.KING) with
  | some k => k.x == 1 && k.y == 3
  | none => false

/-- The translated top-left coordinates `(nx, ny)` computed by `canMove`,
as a whole block record (only `x`/`y` change). -/
def moveBlock (dir : Direction) (b : SolverBlock) : SolverBlock :=
  match dir with
  | Direction.UP => { b with y := b.y - 1 }
  | Direction.DOWN => { b with y := b.y + 1 }
  | Direction.LEFT => { b with x := b.x - 1 }
  | Direction.RIGHT => { b with x := b.x + 1 }

/-- `canMove` from the solver module: boundary check on the translated
rectangle, then an AABB collision check against every other block.
The source indexes `allBlocks[movingBlockIndex]` directly; the solver only
calls it with in-range indices, and the soundness/optimality theorems below
are stated for in-range indices. -/
def canMove (movingBlockIndex : Nat) (dir : Direction) (allBlocks : List SolverBlock) : Bool :=
  let b := allBlocks.getD movingBlockIndex default
  let nb := moveBlock dir b
  if nb.x < 0 ∨ nb.y < 0 ∨ nb.x + b.width > GRID_WIDTH ∨ nb.y + b.height > GRID_HEIGHT then
    false
  else
    (List.range allBlocks.length).all fun i =>
      if i = movingBlockIndex then true
      else
        let other := allBlocks.getD i default
        !(nb.x < other.x + other.width && nb.x + b.width > other.x &&
          nb.y < other.y + other.height && nb.y + b.height > other.y)

/-- The move application of `findSolution` (clone the block list, then
shift block `i` by one cell). -/
def applyMove (i : Nat) (dir : Direction) (blocks : List SolverBlock) : List SolverBlock :=
  blocks.set i (moveBlock dir (blocks.getD i default))

/-- The fixed direction order `[UP, DOWN, LEFT, RIGHT]` of the inner loop. -/
def dirs : List Direction :=
  [Direction.UP, Direction.DOWN, Direction.LEFT, Direction.RIGHT]

/-- The (block index, direction) pairs tried when expanding a node, in the
source's enumeration order: block indices ascending, directions in `dirs`
order. -/
def pairsFor (n : Nat) : List (Nat × Direction) :=
  (List.range n).flatMap fun i => dirs.map fun d => (i, d)

/-- `MAX_ITERATIONS` from the solver module (the hard-coded safety limit). -/
def MAX_ITERATIONS : Nat := 50000

/-- The body of the two nested `for` loops expanding the dequeued node
`cur`: processes the remaining (index, direction) pairs in order, threading
the queue and the visited set, and aborts with `Sum.inl path` exactly where
the source does `return newPath`. -/
def expandPairs (maxDepth : Nat) (cur : SolverState) :
    List (Nat × Direction) → List SolverState → List (List Int) →
    (List SimplifiedMove) ⊕ (List SolverState × List (List Int))
  | [], q, v => Sum.inr (q, v)
  | (i, d) :: rest, q, v =>
    if canMove i d cur.blocks then
      let newBlocks := applyMove i d cur.blocks
      let hash := encodeState newBlocks
      if hash ∈ v then
        expandPairs maxDepth cur rest q v
      else
        let newPath := cur.path ++ [⟨i, d⟩]
        if isSolved newBlocks then
          Sum.inl newPath
        else if newPath.length < maxDepth then
          expandPairs maxDepth cur rest (q ++ [⟨newBlocks, newPath⟩]) (hash :: v)
        else
          expandPairs maxDepth cur rest q v
    else
      expandPairs maxDepth cur rest q v

/-- Expansion of a dequeued node over all its (index, direction) pairs. -/
def expandNode (maxDepth : Nat) (cur : SolverState)
    (q : List SolverState) (v : List (List Int)) :
    (List SimplifiedMove) ⊕ (List SolverState × List (List Int)) :=
  expandPairs maxDepth cur (pairsFor cur.blocks.length) q v

/-- The mutable loop state of `findSolution`: the moving head index, the
queue array, and the visited set. -/
structure SearchConfig where
  head : Nat
  queue : List SolverState
  visited : List (List Int)
deriving DecidableEq, Repr

/-- Result of one `while` iteration: either the loop exits with the
function's result, or continues with an updated configuration. -/
inductive StepResult where
  | done (res : Option (List SimplifiedMove))
  | next (cfg : SearchConfig)
deriving DecidableEq, Repr

/-- One iteration of the `while (head < queue.length)` loop: the iteration
guard `head > MAX_ITERATIONS`, the dequeue, and the expansion of the
dequeued node. -/
def solveStep (maxDepth : Nat) (cfg : SearchConfig) : StepResult :=
  if h : cfg.head < cfg.queue.length then
    if MAX_ITERATIONS < cfg.head then
      StepResult.done none
    else
      let cur := cfg.queue.get ⟨cfg.head, h⟩
      match expandNode maxDepth cur cfg.queue cfg.visited with
      | Sum.inl path => StepResult.done (some path)
      | Sum.inr (q2, v2) => StepResult.next ⟨cfg.head + 1, q2, v2⟩
  else
    StepResult.done none

/-- The `while` loop, driven by fuel.  Fuel `MAX_ITERATIONS + 2` is enough
to never run out (theorem `runLoop_fuel_irrelevant` below). -/
def runLoop (maxDepth : Nat) : Nat → SearchConfig → Option (List SimplifiedMove)
  | 0, _ => none
  | fuel + 1, cfg =>
    match solveStep maxDepth cfg with
    | StepResult.done r => r
    | StepResult.next cfg2 => runLoop maxDepth fuel cfg2

/-- Iterating `solveStep` `n` times, `none` if the loop exits earlier.
Used to talk about every configuration the search passes through. -/
def iterN (maxDepth : Nat) : Nat → SearchConfig → Option SearchConfig
  | 0, cfg => some cfg
  | n + 1, cfg =>
    match solveStep maxDepth cfg with
    | StepResult.done _ => none
    | StepResult.next cfg2 => iterN maxDepth n cfg2

/-- The copy `{type, x, y, width, height}` taken of each caller block on
entry to `findSolution`. -/
def toSolverBlock (b : Block) : SolverBlock :=
  ⟨b.type, b.x, b.y, b.width, b.height⟩

/-- The initial loop configuration of `findSolution`: head 0, the root
node `{blocks: startBlocks, path: []}`, and the visited set `{startHash}`. -/
def initConfig (initialBlocks : List Block) : SearchConfig :=
  let startBlocks := initialBlocks.map toSolverBlock
  ⟨0, [⟨startBlocks, []⟩], [encodeState startBlocks]⟩

/-- `findSolution` with explicit fuel for the `while` loop. -/
def findSolutionFuel (initialBlocks : List Block) (maxDepth : Nat) (fuel : Nat) :
    Option (List SimplifiedMove) :=
  let startBlocks := initialBlocks.map toSolverBlock
  if isSolved startBlocks then
    some []
  else
    runLoop maxDepth fuel (initConfig initialBlocks)

/-- `findSolution` from the solver module (`maxDepth` defaults to 200 at the
JS call sites; it is an explicit argument here). -/
def findSolution (initialBlocks : List Block) (maxDepth : Nat) :
    Option (List SimplifiedMove) :=
  findSolutionFuel initialBlocks maxDepth (MAX_ITERATIONS + 2)

/-! ## Specification-side definitions -/

/-- A block's rectangle, translated or not, lies inside the grid. -/
def inGrid (b : SolverBlock) : Prop :=
  0 ≤ b.x ∧ 0 ≤ b.y ∧ b.x + b.width ≤ GRID_WIDTH ∧ b.y + b.height ≤ GRID_HEIGHT

instance (b : SolverBlock) : Decidable (inGrid b) := by
  unfold inGrid; infer_instance

/-- The specification's rectangle-overlap predicate:
`A.x < B.x+B.width AND A.x+A.width > B.x AND A.y < B.y+B.height AND A.y+A.height > B.y`. -/
def overlapRect (a b : SolverBlock) : Prop :=
  a.x < b.x + b.width ∧ a.x + a.width > b.x ∧ a.y < b.y + b.height ∧ a.y + a.height > b.y

instance (a b : SolverBlock) : Decidable (overlapRect a b) := by
  unfold overlapRect; infer_instance

/-- A valid board: every block inside the grid and pairwise non-overlapping. -/
def validBoard (blocks : List SolverBlock) : Prop :=
  (∀ b ∈ blocks, inGrid b) ∧ List.Pairwise (fun a b => ¬overlapRect a b) blocks

instance (blocks : List SolverBlock) : Decidable (validBoard blocks) := by
  unfold validBoard
  infer_instance

/-- Block `b` covers grid cell `(cx, cy)`. -/
def covers (b : SolverBlock) (cx cy : Int) : Prop :=
  b.x ≤ cx ∧ cx < b.x + b.width ∧ b.y ≤ cy ∧ cy < b.y + b.height

instance (b : SolverBlock) (cx cy : Int) : Decidable (covers b cx cy) := by
  unfold covers; infer_instance

/-- Cell `(cx, cy)` is occupied by a block of kind `t` on board `blocks`
(occupancy-by-kind, the quantity the canonical key is meant to capture). -/
def cellKind (blocks : List SolverBlock) (cx cy : Int) (t : BlockType) : Prop :=
  ∃ b ∈ blocks, covers b cx cy ∧ b.type = t

/-- The standard dimensions per kind (King 2×2, Vertical 1×2,
Horizontal 2×1, Pawn 1×1). -/
def stdDims (b : SolverBlock) : Prop :=
  (b.type = BlockType.KING → b.width = 2 ∧ b.height = 2) ∧
  (b.type = BlockType.VERTICAL → b.width = 1 ∧ b.height = 2) ∧
  (b.type = BlockType.HORIZONTAL → b.width = 2 ∧ b.height = 1) ∧
  (b.type = BlockType.PAWN → b.width = 1 ∧ b.height = 1)

instance (b : SolverBlock) : Decidable (stdDims b) := by
  unfold stdDims; infer_instance

/-- Exactly one King block in the list (the distinguished piece). -/
def oneKing (blocks : List SolverBlock) : Prop :=
  blocks.countP (fun b => b.type == BlockType.KING) = 1

instance (blocks : List SolverBlock) : Decidable (oneKing blocks) := by
  unfold oneKing; infer_instance

/-- Replaying a move list from a board, requiring each move's index to be in
range and each move to pass `canMove` (the legality rules of §4.2), as the
spec's replay contract describes. -/
def replay (blocks : List SolverBlock) : List SimplifiedMove → Option (List SolverBlock)
  | [] => some blocks
  | m :: ms =>
    if m.blockIndex < blocks.length ∧ canMove m.blockIndex m.direction blocks = true then
      replay (applyMove m.blockIndex m.direction blocks) ms
    else
      none

/-- Board `b` is reachable from `start` by some legal move sequence of
length `n`. -/
def Reach (start : List SolverBlock) (n : Nat) (b : List SolverBlock) : Prop :=
  ∃ ms : List SimplifiedMove, ms.length = n ∧ replay start ms = some b

/-- A move list solves the board: it replays legally and the final board
satisfies the goal predicate. -/
def Solves (start : List SolverBlock) (ms : List SimplifiedMove) : Prop :=
  ∃ fin : List SolverBlock, replay start ms = some fin ∧ isSolved fin = true

/-- The list with the element at index `i` removed (the "all other blocks"
of the collision check, as a list). -/
def removeAt (l : List SolverBlock) (i : Nat) : List SolverBlock :=
  l.take i ++ l.drop (i + 1)

/-- The move-invariant part of a block: kind and dimensions.  A slide changes
only `x`/`y`, so the image of a board under `shape` is invariant under replay. -/
def shape (b : SolverBlock) : BlockType × Int × Int :=
  (b.type, b.width, b.height)

/-- The column of grid cell index `k` (the key grid is row-major with
rows of `GRID_WIDTH = 4` cells). -/
def cellX (k : Nat) : Int := ((k % 4 : Nat) : Int)

/-- The row of grid cell index `k`. -/
def cellY (k : Nat) : Int := ((k / 4 : Nat) : Int)

instance : Inhabited Block := ⟨⟨"", BlockType.PAWN, 0, 0, 0, 0, none⟩⟩

/-- A one-block fixture: a King two cells above the goal column position,
one legal DOWN move away from the goal. -/
def exKing : List Block :=
  [⟨"king", BlockType.KING, 1, 2, 2, 2, some "KING"⟩]

/-- The same fixture with different `id`/`label` metadata. -/
def exKingRelabel : List Block :=
  [⟨"royal", BlockType.KING, 1, 2, 2, 2, none⟩]

/-- A solved one-block fixture: the King already at the goal cell (1, 3). -/
def exKingSolved : List Block :=
  [⟨"king", BlockType.KING, 1, 3, 2, 2, some "KING"⟩]

/-- The solver-side view of `exKing`. -/
def exKingS : List SolverBlock := [⟨BlockType.KING, 1, 2, 2, 2⟩]

/-- Two pawns, in one listing order. -/
def exPawns : List SolverBlock :=
  [⟨BlockType.PAWN, 0, 0, 1, 1⟩, ⟨BlockType.PAWN, 1, 0, 1, 1⟩]

/-- The same two pawns, listed in the other order. -/
def exPawnsSwap : List SolverBlock :=
  [⟨BlockType.PAWN, 1, 0, 1, 1⟩, ⟨BlockType.PAWN, 0, 0, 1, 1⟩]

/-- What is true of every node pushed onto the queue while expanding `cur`
with visited set `v`: it is a legal one-move successor of `cur`, carrying the
extended path, it is not a goal state, its path respects the depth bound, and
its key was unvisited when the expansion began. -/
def NewEntrySpec (maxDepth : Nat) (cur : SolverState) (v : List (List Int))
    (e : SolverState) : Prop :=
  ∃ i : Nat, ∃ d : Direction, i < cur.blocks.length ∧
    canMove i d cur.blocks = true ∧
    e.blocks = applyMove i d cur.blocks ∧
    e.path = cur.path ++ [⟨i, d⟩] ∧
    isSolved e.blocks = false ∧
    e.path.length < maxDepth ∧
    encodeState e.blocks ∉ v

/-- Every node in the queue replays legally from the root board to its own
board. -/
def ReplayInv (start : List SolverBlock) (cfg : SearchConfig) : Prop :=
  ∀ e ∈ cfg.queue, replay start e.path = some e.blocks

/-- Every node in the queue carries a valid (in-grid, non-overlapping)
board. -/
def ValidInv (cfg : SearchConfig) : Prop :=
  ∀ e ∈ cfg.queue, validBoard e.blocks

/-- The queue never holds two nodes with the same canonical key, and every
queued node's key is in the visited set. -/
def KeysInv (cfg : SearchConfig) : Prop :=
  (cfg.queue.map fun e => encodeState e.blocks).Nodup ∧
  ∀ e ∈ cfg.queue, encodeState e.blocks ∈ cfg.visited

/-- Every queued node's path is strictly below the depth bound. -/
def DepthInv (maxDepth : Nat) (cfg : SearchConfig) : Prop :=
  ∀ e ∈ cfg.queue, e.path.length < maxDepth

/-- A board that can occur during a search from `start`: it is valid and its
blocks have the same kinds and dimensions, position by position, as the
root's (only `x`/`y` change during the search). -/
def GoodBoard (start b : List SolverBlock) : Prop :=
  validBoard b ∧ b.map shape = start.map shape

/-- The full breadth-first invariant of the solver loop, for claim C2.
`cfg.queue` lists every node ever enqueued; indices below `cfg.head` are the
already-expanded nodes, the rest are the frontier in FIFO order. -/
structure SearchInv (maxDepth : Nat) (start : List SolverBlock) (cfg : SearchConfig) : Prop where
  hlen : cfg.head ≤ cfg.queue.length
  root : ∃ rest, cfg.queue = ⟨start, []⟩ :: rest
  nodes : ∀ e ∈ cfg.queue, replay start e.path = some e.blocks ∧
    isSolved e.blocks = false ∧ e.path.length < maxDepth
  mono : ∀ (i j : Nat) (hi : i < cfg.queue.length) (hj : j < cfg.queue.length), i ≤ j →
    (cfg.queue.get ⟨i, hi⟩).path.length ≤ (cfg.queue.get ⟨j, hj⟩).path.length
  depthBound : ∀ hh : cfg.head < cfg.queue.length, ∀ e ∈ cfg.queue,
    e.path.length ≤ (cfg.queue.get ⟨cfg.head, hh⟩).path.length + 1
  keys : KeysInv cfg
  visitedKeys : ∀ k ∈ cfg.visited, ∃ (j : Nat) (hj : j < cfg.queue.length),
    encodeState (cfg.queue.get ⟨j, hj⟩).blocks = k
  processed : ∀ (j : Nat) (hj : j < cfg.queue.length), j < cfg.head →
    ∀ i, i < (cfg.queue.get ⟨j, hj⟩).blocks.length → ∀ d,
      canMove i d (cfg.queue.get ⟨j, hj⟩).blocks = true →
      (isSolved (applyMove i d (cfg.queue.get ⟨j, hj⟩).blocks) = true ∨
        (cfg.queue.get ⟨j, hj⟩).path.length + 1 < maxDepth) →
      encodeState (applyMove i d (cfg.queue.get ⟨j, hj⟩).blocks) ∈ cfg.visited
  minimal : ∀ (j : Nat) (hj : j < cfg.queue.length), ∀ m b, Reach start m b →
    encodeState b = encodeState (cfg.queue.get ⟨j, hj⟩).blocks →
    (cfg.queue.get ⟨j, hj⟩).path.length ≤ m

/-! ## Helper lemmas about lists -/

lemma getD_set_eq (l : List Int) (i : Nat) (v : Int) (j : Nat) (d : Int) :
    (l.set i v).getD j d = if i = j ∧ j < l.length then v else l.getD j d := by
  rcases Nat.lt_or_ge j l.length with hj | hj
  · rw [List.getD_eq_getElem _ _ (by simpa using hj), List.getD_eq_getElem _ _ hj]
    rcases eq_or_ne i j with rfl | hne
    · simp [List.getElem_set, hj]
    · simp [List.getElem_set, hne, hj]
  · rw [List.getD_eq_default _ _ (by simpa using hj), List.getD_eq_default _ _ hj]
    rw [if_neg (by omega)]

lemma mem_take_iff_get (l : List SolverBlock) (i : Nat) (x : SolverBlock) :
    x ∈ l.take i ↔ ∃ j : Nat, ∃ hj : j < l.length, j < i ∧ l.get ⟨j, hj⟩ = x := by
  induction l generalizing i with
  | nil => simp
  | cons a t ih =>
    cases i with
    | zero => simp
    | succ i =>
      simp only [List.take_succ_cons, List.mem_cons, ih]
      constructor
      · rintro (rfl | ⟨j, hjl, hj, rfl⟩)
        · exact ⟨0, by simp, by omega, rfl⟩
        · exact ⟨j + 1, by simp; omega, by omega, rfl⟩
      · rintro ⟨j, hjl, hj, rfl⟩
        cases j with
        | zero => left; rfl
        | succ j =>
          right
          exact ⟨j, by simp at hjl; omega, by omega, rfl⟩

lemma mem_drop_iff_get (l : List SolverBlock) (i : Nat) (x : SolverBlock) :
    x ∈ l.drop i ↔ ∃ j : Nat, ∃ hj : j < l.length, i ≤ j ∧ l.get ⟨j, hj⟩ = x := by
  induction l generalizing i with
  | nil => simp
  | cons a t ih =>
    cases i with
    | zero =>
      simp only [List.drop_zero]
      constructor
      · intro hx
        obtain ⟨⟨j, hj⟩, rfl⟩ := List.mem_iff_get.mp hx
        exact ⟨j, hj, Nat.zero_le _, rfl⟩
      · rintro ⟨j, hj, _, rfl⟩
        exact List.get_mem _ _ _
    | succ i =>
      simp only [List.drop_succ_cons, ih]
      constructor
      · rintro ⟨j, hjl, hj, rfl⟩
        exact ⟨j + 1, by simp; omega, by omega, rfl⟩
      · rintro ⟨j, hjl, hj, rfl⟩
        cases j with
        | zero => omega
        | succ j =>
          exact ⟨j, by simp at hjl; omega, by omega, rfl⟩

lemma mem_removeAt_iff (l : List SolverBlock) (i : Nat) (x : SolverBlock) :
    x ∈ removeAt l i ↔ ∃ j : Nat, ∃ hj : j < l.length, j ≠ i ∧ l.get ⟨j, hj⟩ = x := by
  unfold removeAt
  simp only [List.mem_append, mem_take_iff_get, mem_drop_iff_get]
  constructor
  · rintro (⟨j, hjl, hj, rfl⟩ | ⟨j, hjl, hj, rfl⟩)
    · exact ⟨j, hjl, by omega, rfl⟩
    · exact ⟨j, hjl, by omega, rfl⟩
  · rintro ⟨j, hjl, hj, rfl⟩
    rcases Nat.lt_or_ge j i with h | h
    · exact Or.inl ⟨j, hjl, h, rfl⟩
    · exact Or.inr ⟨j, hjl, by omega, rfl⟩

lemma perm_get_cons_removeAt (l : List SolverBlock) (i : Nat) (h : i < l.length) :
    List.Perm l (l.get ⟨i, h⟩ :: removeAt l i) := by
  conv_lhs => rw [← List.take_append_drop i l, List.drop_eq_getElem_cons h]
  exact List.perm_middle

lemma set_eq_take_cons_drop (l : List SolverBlock) (i : Nat) (v : SolverBlock)
    (h : i < l.length) :
    l.set i v = l.take i ++ v :: l.drop (i + 1) := by
  rw [List.set_eq_take_append_cons_drop, if_pos h]

lemma all_eq_of_perm (l₁ l₂ : List SolverBlock) (h : List.Perm l₁ l₂)
    (p : SolverBlock → Bool) : l₁.all p = l₂.all p := by
  rcases hb : l₂.all p with _ | _
  · rcases (List.all_eq_false.mp hb) with ⟨x, hx, hpx⟩
    exact List.all_eq_false.mpr ⟨x, h.mem_iff.mpr hx, hpx⟩
  · exact List.all_eq_true.mpr fun x hx =>
      List.all_eq_true.mp hb x (h.mem_iff.mp hx)

/-! ## Basic facts about moves -/

lemma moveBlock_type (d : Direction) (b : SolverBlock) : (moveBlock d b).type = b.type := by
  cases d <;> rfl

lemma moveBlock_width (d : Direction) (b : SolverBlock) : (moveBlock d b).width = b.width := by
  cases d <;> rfl

lemma moveBlock_height (d : Direction) (b : SolverBlock) : (moveBlock d b).height = b.height := by
  cases d <;> rfl

lemma length_applyMove (i : Nat) (d : Direction) (bs : List SolverBlock) :
    (applyMove i d bs).length = bs.length := by
  simp [applyMove]

lemma getD_eq_get (bs : List SolverBlock) (i : Nat) (h : i < bs.length) :
    bs.getD i default = bs.get ⟨i, h⟩ :=
  List.getD_eq_getElem bs default h

lemma get_applyMove_self (i : Nat) (d : Direction) (bs : List SolverBlock)
    (h : i < bs.length) :
    (applyMove i d bs).get ⟨i, by simpa [applyMove] using h⟩ =
      moveBlock d (bs.get ⟨i, h⟩) := by
  simp only [applyMove, getD_eq_get bs i h, List.get_eq_getElem, List.getElem_set]
  simp

lemma get_applyMove_ne (i : Nat) (d : Direction) (bs : List SolverBlock)
    (j : Nat) (hj : j < bs.length) (hne : j ≠ i) :
    (applyMove i d bs).get ⟨j, by simpa [applyMove] using hj⟩ = bs.get ⟨j, hj⟩ := by
  simp only [applyMove, List.get_eq_getElem, List.getElem_set]
  rw [if_neg (fun h : i = j => hne h.symm)]

/-! ## The canMove characterization (claim C3) -/

lemma overlap_bool_iff (nb o : SolverBlock) (bw bh : Int)
    (hw : nb.width = bw) (hh : nb.height = bh) :
    (nb.x < o.x + o.width && nb.x + bw > o.x &&
      nb.y < o.y + o.height && nb.y + bh > o.y) = true ↔ overlapRect nb o := by
  subst hw hh
  simp only [overlapRect, Bool.and_eq_true, decide_eq_true_eq]
  tauto

lemma canMove_iff (i : Nat) (d : Direction) (bs : List SolverBlock) (h : i < bs.length) :
    canMove i d bs = true ↔
      inGrid (moveBlock d (bs.get ⟨i, h⟩)) ∧
      ∀ j, ∀ hj : j < bs.length, j ≠ i →
        ¬ overlapRect (moveBlock d (bs.get ⟨i, h⟩)) (bs.get ⟨j, hj⟩) := by
  have hb : bs.getD i default = bs.get ⟨i, h⟩ := getD_eq_get bs i h
  unfold canMove
  simp only [hb]
  have hw := moveBlock_width d (bs.get ⟨i, h⟩)
  have hh := moveBlock_height d (bs.get ⟨i, h⟩)
  by_cases hbound : (moveBlock d (bs.get ⟨i, h⟩)).x < 0 ∨ (moveBlock d (bs.get ⟨i, h⟩)).y < 0 ∨
      (moveBlock d (bs.get ⟨i, h⟩)).x + (bs.get ⟨i, h⟩).width > GRID_WIDTH ∨
      (moveBlock d (bs.get ⟨i, h⟩)).y + (bs.get ⟨i, h⟩).height > GRID_HEIGHT
  · rw [if_pos hbound]
    constructor
    · intro hf; exact absurd hf (by simp)
    · rintro ⟨hg, -⟩
      exfalso
      unfold inGrid at hg
      unfold GRID_WIDTH GRID_HEIGHT at *
      omega
  · rw [if_neg hbound]
    have hg : inGrid (moveBlock d (bs.get ⟨i, h⟩)) := by
      unfold inGrid
      unfold GRID_WIDTH GRID_HEIGHT at *
      push_neg at hbound
      omega
    constructor
    · intro hall
      refine ⟨hg, ?_⟩
      intro j hj hji
      have hj2 := List.all_eq_true.mp hall j (List.mem_range.mpr hj)
      rw [if_neg hji] at hj2
      rw [getD_eq_get bs j hj] at hj2
      rw [Bool.not_eq_true'] at hj2
      intro hov
      rw [← overlap_bool_iff _ _ _ _ hw hh] at hov
      rw [hj2] at hov
      exact absurd hov (by simp)
    · rintro ⟨-, hno⟩
      refine List.all_eq_true.mpr ?_
      intro j hjr
      have hj := List.mem_range.mp hjr
      by_cases hji : j = i
      · rw [if_pos hji]
      · rw [if_neg hji]
        rw [getD_eq_get bs j hj]
        rw [Bool.not_eq_true']
        rcases Bool.eq_false_or_eq_true ((moveBlock d (bs.get ⟨i, h⟩)).x < (bs.get ⟨j, hj⟩).x + (bs.get ⟨j, hj⟩).width &&
            (moveBlock d (bs.get ⟨i, h⟩)).x + (bs.get ⟨i, h⟩).width > (bs.get ⟨j, hj⟩).x &&
            (moveBlock d (bs.get ⟨i, h⟩)).y < (bs.get ⟨j, hj⟩).y + (bs.get ⟨j, hj⟩).height &&
            (moveBlock d (bs.get ⟨i, h⟩)).y + (bs.get ⟨i, h⟩).height > (bs.get ⟨j, hj⟩).y) with hcb | hcb
        · exact absurd ((overlap_bool_iff _ _ _ _ hw hh).mp hcb) (hno j hj hji)
        · exact hcb

example : findSolution
    [⟨"king", BlockType.KING, 1, 2, 2, 2, some "KING"⟩] 200 =
    some [⟨0, Direction.DOWN⟩] := by decide

example : findSolution
    [⟨"king", BlockType.KING, 1, 3, 2, 2, some "KING"⟩] 200 = some [] := by decide

lemma shape_moveBlock (d : Direction) (b : SolverBlock) : shape (moveBlock d b) = shape b := by
  cases d <;> rfl

lemma canMove_eq_removeAt (i : Nat) (d : Direction) (bs : List SolverBlock) (h : i < bs.length) :
    canMove i d bs =
      (decide (inGrid (moveBlock d (bs.get ⟨i, h⟩))) &&
        (removeAt bs i).all fun o => !decide (overlapRect (moveBlock d (bs.get ⟨i, h⟩)) o)) := by
  apply Bool.coe_iff_coe.mp
  rw [canMove_iff i d bs h]
  simp only [Bool.and_eq_true, decide_eq_true_eq, List.all_eq_true, Bool.not_eq_true',
    decide_eq_false_iff_not]
  constructor
  · rintro ⟨hg, hno⟩
    refine ⟨hg, ?_⟩
    intro o ho
    obtain ⟨j, hj, hji, rfl⟩ := (mem_removeAt_iff bs i o).mp ho
    exact hno j hj hji
  · rintro ⟨hg, hno⟩
    refine ⟨hg, ?_⟩
    intro j hj hji
    exact hno _ ((mem_removeAt_iff bs i _).mpr ⟨j, hj, hji, rfl⟩)

lemma removeAt_perm_of_perm (bs1 bs2 : List SolverBlock) (i1 i2 : Nat)
    (h1 : i1 < bs1.length) (h2 : i2 < bs2.length) (hperm : List.Perm bs1 bs2)
    (hv : bs1.get ⟨i1, h1⟩ = bs2.get ⟨i2, h2⟩) :
    List.Perm (removeAt bs1 i1) (removeAt bs2 i2) := by
  have p1 := perm_get_cons_removeAt bs1 i1 h1
  have p2 := perm_get_cons_removeAt bs2 i2 h2
  have : List.Perm (bs1.get ⟨i1, h1⟩ :: removeAt bs1 i1)
      (bs1.get ⟨i1, h1⟩ :: removeAt bs2 i2) := by
    refine (p1.symm.trans (hperm.trans p2)).trans ?_
    rw [hv]
  exact this.cons_inv

lemma canMove_eq_of_perm (bs1 bs2 : List SolverBlock) (i1 i2 : Nat) (d : Direction)
    (h1 : i1 < bs1.length) (h2 : i2 < bs2.length) (hperm : List.Perm bs1 bs2)
    (hv : bs1.get ⟨i1, h1⟩ = bs2.get ⟨i2, h2⟩) :
    canMove i1 d bs1 = canMove i2 d bs2 := by
  rw [canMove_eq_removeAt i1 d bs1 h1, canMove_eq_removeAt i2 d bs2 h2, hv]
  congr 1
  exact all_eq_of_perm _ _ (removeAt_perm_of_perm bs1 bs2 i1 i2 h1 h2 hperm hv) _

lemma applyMove_eq_decomp (i : Nat) (d : Direction) (bs : List SolverBlock)
    (h : i < bs.length) :
    applyMove i d bs = bs.take i ++ moveBlock d (bs.get ⟨i, h⟩) :: bs.drop (i + 1) := by
  rw [applyMove, getD_eq_get bs i h, set_eq_take_cons_drop _ _ _ h]

lemma applyMove_perm_cons (i : Nat) (d : Direction) (bs : List SolverBlock)
    (h : i < bs.length) :
    List.Perm (applyMove i d bs) (moveBlock d (bs.get ⟨i, h⟩) :: removeAt bs i) := by
  rw [applyMove_eq_decomp i d bs h]
  exact List.perm_middle

lemma applyMove_perm_of_perm (bs1 bs2 : List SolverBlock) (i1 i2 : Nat) (d : Direction)
    (h1 : i1 < bs1.length) (h2 : i2 < bs2.length) (hperm : List.Perm bs1 bs2)
    (hv : bs1.get ⟨i1, h1⟩ = bs2.get ⟨i2, h2⟩) :
    List.Perm (applyMove i1 d bs1) (applyMove i2 d bs2) := by
  refine (applyMove_perm_cons i1 d bs1 h1).trans (List.Perm.trans ?_ (applyMove_perm_cons i2 d bs2 h2).symm)
  rw [hv]
  exact (removeAt_perm_of_perm bs1 bs2 i1 i2 h1 h2 hperm hv).cons _

lemma map_shape_applyMove (i : Nat) (d : Direction) (bs : List SolverBlock) :
    (applyMove i d bs).map shape = bs.map shape := by
  rcases Nat.lt_or_ge i bs.length with h | h
  · rw [applyMove_eq_decomp i d bs h, List.map_append, List.map_cons, shape_moveBlock]
    conv_rhs => rw [← List.take_append_drop i bs, List.drop_eq_getElem_cons h]
    rw [List.map_append, List.map_cons]
    rfl
  · rw [applyMove, List.set_eq_of_length_le (by omega)]

lemma replay_append (s : List SolverBlock) (ms1 ms2 : List SimplifiedMove) :
    replay s (ms1 ++ ms2) = (replay s ms1).bind fun b => replay b ms2 := by
  induction ms1 generalizing s with
  | nil => simp [replay]
  | cons m ms ih =>
    simp only [List.cons_append, replay]
    by_cases hc : m.blockIndex < s.length ∧ canMove m.blockIndex m.direction s = true
    · rw [if_pos hc, if_pos hc]
      exact ih _
    · rw [if_neg hc, if_neg hc]
      rfl

lemma map_shape_replay (ms : List SimplifiedMove) (s b : List SolverBlock)
    (h : replay s ms = some b) : b.map shape = s.map shape := by
  induction ms generalizing s with
  | nil =>
    simp only [replay, Option.some_inj] at h
    rw [h]
  | cons m ms ih =>
    simp only [replay] at h
    by_cases hc : m.blockIndex < s.length ∧ canMove m.blockIndex m.direction s = true
    · rw [if_pos hc] at h
      rw [ih _ h, map_shape_applyMove]
    · rw [if_neg hc] at h
      cases h

lemma length_replay (ms : List SimplifiedMove) (s b : List SolverBlock)
    (h : replay s ms = some b) : b.length = s.length := by
  have := congrArg List.length (map_shape_replay ms s b h)
  simpa using this

lemma countP_eq_one_unique (p : SolverBlock → Bool) (l : List SolverBlock)
    (h : l.countP p = 1) (a b : SolverBlock) (ha : a ∈ l) (hb : b ∈ l)
    (hpa : p a = true) (hpb : p b = true) : a = b := by
  induction l with
  | nil => cases ha
  | cons x t ih =>
    rw [List.countP_cons] at h
    by_cases hpx : p x = true
    · rw [if_pos hpx] at h
      have ht : t.countP p = 0 := by omega
      have hnone := List.countP_eq_zero.mp ht
      rcases List.mem_cons.mp ha with rfl | ha2
      · rcases List.mem_cons.mp hb with rfl | hb2
        · rfl
        · exact absurd hpb (hnone b hb2)
      · exact absurd hpa (hnone a ha2)
    · rw [if_neg hpx] at h
      simp only [Nat.add_zero] at h
      rcases List.mem_cons.mp ha with rfl | ha2
      · exact absurd hpa hpx
      · rcases List.mem_cons.mp hb with rfl | hb2
        · exact absurd hpb hpx
        · exact ih h ha2 hb2

lemma isSolved_iff_mem (bs : List SolverBlock) (hk : oneKing bs) :
    isSolved bs = true ↔
      ∃ b ∈ bs, b.type = BlockType.KING ∧ b.x = 1 ∧ b.y = 3 := by
  unfold isSolved
  rcases hf : bs.find? (fun b => b.type == BlockType.KING) with _ | k
  · rw [hf]
    show false = true ↔ _
    constructor
    · intro hfalse; cases hfalse
    · rintro ⟨b, hb, ht, -⟩
      have h2 := List.find?_eq_none.mp hf b hb
      simp [ht] at h2
  · rw [hf]
    show (k.x == 1 && k.y == 3) = true ↔ _
    have hkmem := List.mem_of_find?_eq_some hf
    have hkp : k.type = BlockType.KING := by
      have := List.find?_some hf
      simpa using this
    constructor
    · intro hx
      rw [Bool.and_eq_true, beq_iff_eq, beq_iff_eq] at hx
      exact ⟨k, hkmem, hkp, hx.1, hx.2⟩
    · rintro ⟨b, hb, ht, hx, hy⟩
      have hbk : k = b := by
        refine countP_eq_one_unique _ bs hk k b hkmem hb ?_ ?_
        · simp [hkp]
        · simp [ht]
      subst hbk
      simp [hx, hy]

lemma oneKing_of_perm (bs1 bs2 : List SolverBlock) (hk : oneKing bs1)
    (hp : List.Perm bs1 bs2) : oneKing bs2 := by
  unfold oneKing at *
  rw [← hp.countP_eq]
  exact hk

lemma isSolved_eq_of_perm (bs1 bs2 : List SolverBlock) (hk : oneKing bs1)
    (hp : List.Perm bs1 bs2) : isSolved bs1 = isSolved bs2 := by
  apply Bool.coe_iff_coe.mp
  rw [isSolved_iff_mem bs1 hk, isSolved_iff_mem bs2 (oneKing_of_perm bs1 bs2 hk hp)]
  constructor
  · rintro ⟨b, hb, hrest⟩
    exact ⟨b, hp.mem_iff.mp hb, hrest⟩
  · rintro ⟨b, hb, hrest⟩
    exact ⟨b, hp.mem_iff.mpr hb, hrest⟩

lemma oneKing_of_map_shape_eq (bs1 bs2 : List SolverBlock)
    (h : bs1.map shape = bs2.map shape) (hk : oneKing bs1) : oneKing bs2 := by
  unfold oneKing at *
  have h1 : bs1.countP (fun b => b.type == BlockType.KING) =
      (bs1.map shape).countP (fun sh => sh.1 == BlockType.KING) := by
    rw [List.countP_map]
    rfl
  have h2 : bs2.countP (fun b => b.type == BlockType.KING) =
      (bs2.map shape).countP (fun sh => sh.1 == BlockType.KING) := by
    rw [List.countP_map]
    rfl
  rw [h2, ← h, ← h1]
  exact hk

lemma stdDims_of_map_shape_eq (bs1 bs2 : List SolverBlock)
    (h : bs1.map shape = bs2.map shape) (hs : ∀ b ∈ bs1, stdDims b) :
    ∀ b ∈ bs2, stdDims b := by
  intro b hb
  have hsh : shape b ∈ bs2.map shape := List.mem_map_of_mem shape hb
  rw [← h] at hsh
  obtain ⟨b0, hb0, hsb⟩ := List.mem_map.mp hsh
  have := hs b0 hb0
  unfold stdDims at *
  unfold shape at hsb
  have ht : b0.type = b.type := congrArg Prod.fst hsb
  have hw : b0.width = b.width := congrArg (fun sh => sh.2.1) hsb
  have hh : b0.height = b.height := congrArg (fun sh => sh.2.2) hsb
  rw [ht, hw, hh] at this
  exact this

/-! ## Characterizing the canonical key -/

lemma length_writeCell (g : List Int) (idx c : Int) : (writeCell g idx c).length = g.length := by
  unfold writeCell
  split <;> simp

lemma foldl_length_inv {α : Type} (l : List α) (f : List Int → α → List Int)
    (hf : ∀ g a, (f g a).length = g.length) (g : List Int) :
    (l.foldl f g).length = g.length := by
  induction l generalizing g with
  | nil => rfl
  | cons a t ih => rw [List.foldl_cons, ih, hf]

lemma length_writeBlock (g : List Int) (b : SolverBlock) :
    (writeBlock g b).length = g.length := by
  unfold writeBlock
  refine foldl_length_inv _ _ ?_ g
  intro g1 dy
  refine foldl_length_inv _ _ ?_ g1
  intro g2 dx
  exact length_writeCell _ _ _

lemma length_encodeState (bs : List SolverBlock) : (encodeState bs).length = 20 := by
  unfold encodeState
  rw [foldl_length_inv _ _ length_writeBlock]
  simp [GRID_WIDTH, GRID_HEIGHT]

lemma writeCell_getD (g : List Int) (idx c : Int) (k : Nat)
    (hg : g.length = 20) (hk : k < 20) :
    (writeCell g idx c).getD k 0 = if idx = (k : Int) then c else g.getD k 0 := by
  unfold writeCell
  by_cases hguard : 0 ≤ idx ∧ idx < GRID_WIDTH * GRID_HEIGHT
  · rw [if_pos hguard, getD_set_eq]
    unfold GRID_WIDTH GRID_HEIGHT at hguard
    by_cases heq : idx = (k : Int)
    · rw [if_pos heq, if_pos]
      constructor
      · omega
      · omega
    · rw [if_neg heq, if_neg]
      intro hcon
      apply heq
      omega
  · rw [if_neg hguard]
    unfold GRID_WIDTH GRID_HEIGHT at hguard
    rw [if_neg]
    intro hcon
    apply hguard
    constructor
    · omega
    · omega

lemma rowFold_getD_hit (n : Nat) (base c : Int) (g : List Int) (k : Nat)
    (hg : g.length = 20) (hk : k < 20)
    (hex : ∃ dx : Nat, dx < n ∧ base + (dx : Int) = (k : Int)) :
    ((List.range n).foldl (fun g2 (dx : Nat) => writeCell g2 (base + (dx : Int)) c) g).getD k 0 = c := by
  induction n generalizing g with
  | zero => obtain ⟨dx, hdx, -⟩ := hex; omega
  | succ n ih =>
    rw [List.range_succ, List.foldl_append, List.foldl_cons, List.foldl_nil]
    have hlen : ((List.range n).foldl (fun g2 (dx : Nat) => writeCell g2 (base + (dx : Int)) c) g).length = 20 := by
      rw [foldl_length_inv _ _ (fun g2 dx => length_writeCell g2 _ c) g, hg]
    rw [writeCell_getD _ _ _ _ hlen hk]
    by_cases hlast : base + (n : Int) = (k : Int)
    · rw [if_pos hlast]
    · rw [if_neg hlast]
      obtain ⟨dx, hdx, hbe⟩ := hex
      have hdxn : dx < n := by
        rcases Nat.lt_succ_iff_lt_or_eq.mp hdx with h2 | h2
        · exact h2
        · subst h2; exact absurd hbe hlast
      exact ih g hg ⟨dx, hdxn, hbe⟩

lemma rowFold_getD_miss (n : Nat) (base c : Int) (g : List Int) (k : Nat)
    (hg : g.length = 20) (hk : k < 20)
    (hnex : ∀ dx : Nat, dx < n → base + (dx : Int) ≠ (k : Int)) :
    ((List.range n).foldl (fun g2 (dx : Nat) => writeCell g2 (base + (dx : Int)) c) g).getD k 0 =
      g.getD k 0 := by
  induction n generalizing g with
  | zero => rfl
  | succ n ih =>
    rw [List.range_succ, List.foldl_append, List.foldl_cons, List.foldl_nil]
    have hlen : ((List.range n).foldl (fun g2 (dx : Nat) => writeCell g2 (base + (dx : Int)) c) g).length = 20 := by
      rw [foldl_length_inv _ _ (fun g2 dx => length_writeCell g2 _ c) g, hg]
    rw [writeCell_getD _ _ _ _ hlen hk, if_neg (hnex n (by omega))]
    exact ih g hg (fun dx hdx => hnex dx (by omega))

lemma writeBlock_eq_rows (g : List Int) (b : SolverBlock) :
    writeBlock g b = (List.range b.height.toNat).foldl (fun g1 (dy : Nat) =>
      (List.range b.width.toNat).foldl (fun g2 (dx : Nat) =>
        writeCell g2 (((b.y + (dy : Int)) * GRID_WIDTH + b.x) + (dx : Int))
          (codeOf b.type)) g1) g := by
  unfold writeBlock
  congr 1
  funext g1 dy
  congr 1
  funext g2 dx
  congr 1
  ring

lemma write_idx_eq_iff (b : SolverBlock) (hb : inGrid b) (k : Nat) (hk : k < 20)
    (dy dx : Nat) (hdy : dy < b.height.toNat) (hdx : dx < b.width.toNat) :
    (((b.y + (dy : Int)) * GRID_WIDTH + b.x) + (dx : Int) = (k : Int)) ↔
      (b.y + (dy : Int) = cellY k ∧ b.x + (dx : Int) = cellX k) := by
  unfold inGrid at hb
  unfold cellX cellY GRID_WIDTH GRID_HEIGHT at *
  omega

lemma covers_iff_write (b : SolverBlock) (hb : inGrid b) (k : Nat) (hk : k < 20) :
    covers b (cellX k) (cellY k) ↔
      ∃ dy : Nat, dy < b.height.toNat ∧ ∃ dx : Nat, dx < b.width.toNat ∧
        ((b.y + (dy : Int)) * GRID_WIDTH + b.x) + (dx : Int) = (k : Int) := by
  unfold covers
  constructor
  · rintro ⟨h1, h2, h3, h4⟩
    refine ⟨(cellY k - b.y).toNat, ?_, (cellX k - b.x).toNat, ?_, ?_⟩
    · unfold inGrid at hb; unfold cellX cellY GRID_WIDTH GRID_HEIGHT at *; omega
    · unfold inGrid at hb; unfold cellX cellY GRID_WIDTH GRID_HEIGHT at *; omega
    · unfold inGrid at hb; unfold cellX cellY GRID_WIDTH GRID_HEIGHT at *; omega
  · rintro ⟨dy, hdy, dx, hdx, heq⟩
    rw [write_idx_eq_iff b hb k hk dy dx hdy hdx] at heq
    unfold inGrid at hb
    unfold cellX cellY GRID_WIDTH GRID_HEIGHT at *
    omega

lemma writeBlock_getD_hit (g : List Int) (b : SolverBlock) (k : Nat)
    (hg : g.length = 20) (hk : k < 20) (hb : inGrid b)
    (hcov : covers b (cellX k) (cellY k)) :
    (writeBlock g b).getD k 0 = codeOf b.type := by
  rw [writeBlock_eq_rows]
  obtain ⟨dy0, hdy0, dx0, hdx0, heq0⟩ := (covers_iff_write b hb k hk).mp hcov
  have hrow0 := (write_idx_eq_iff b hb k hk dy0 dx0 hdy0 hdx0).mp heq0
  -- induction over the rows; the row `dy0` writes `k`, later rows do not touch `k`
  have main : ∀ n : Nat, n ≤ b.height.toNat → dy0 < n →
      ((List.range n).foldl (fun g1 (dy : Nat) =>
        (List.range b.width.toNat).foldl (fun g2 (dx : Nat) =>
          writeCell g2 (((b.y + (dy : Int)) * GRID_WIDTH + b.x) + (dx : Int))
            (codeOf b.type)) g1) g).getD k 0 = codeOf b.type := by
    intro n
    induction n with
    | zero => omega
    | succ n ih =>
      intro hn hdy0n
      rw [List.range_succ, List.foldl_append, List.foldl_cons, List.foldl_nil]
      have hlen : ((List.range n).foldl (fun g1 (dy : Nat) =>
          (List.range b.width.toNat).foldl (fun g2 (dx : Nat) =>
            writeCell g2 (((b.y + (dy : Int)) * GRID_WIDTH + b.x) + (dx : Int))
              (codeOf b.type)) g1) g).length = 20 := by
        rw [foldl_length_inv _ _ ?_ g, hg]
        intro g1 dy
        rw [foldl_length_inv _ _ ?_ g1]
        intro g2 dx
        exact length_writeCell _ _ _
      rcases Nat.lt_succ_iff_lt_or_eq.mp hdy0n with hcase | hcase
      · -- row `n` is not the covering row: it misses `k`
        rw [rowFold_getD_miss _ _ _ _ _ hlen hk ?_]
        · exact ih (by omega) hcase
        · intro dx hdx heq
          have := (write_idx_eq_iff b hb k hk n dx (by omega) hdx).mp heq
          omega
      · subst hcase
        exact rowFold_getD_hit _ _ _ _ _ hlen hk ⟨dx0, hdx0, by omega⟩
  exact main b.height.toNat (le_refl _) hdy0

lemma writeBlock_getD_miss (g : List Int) (b : SolverBlock) (k : Nat)
    (hg : g.length = 20) (hk : k < 20) (hb : inGrid b)
    (hcov : ¬ covers b (cellX k) (cellY k)) :
    (writeBlock g b).getD k 0 = g.getD k 0 := by
  rw [writeBlock_eq_rows]
  have main : ∀ n : Nat, n ≤ b.height.toNat →
      ((List.range n).foldl (fun g1 (dy : Nat) =>
        (List.range b.width.toNat).foldl (fun g2 (dx : Nat) =>
          writeCell g2 (((b.y + (dy : Int)) * GRID_WIDTH + b.x) + (dx : Int))
            (codeOf b.type)) g1) g).getD k 0 = g.getD k 0 := by
    intro n
    induction n with
    | zero => intro _; rfl
    | succ n ih =>
      intro hn
      rw [List.range_succ, List.foldl_append, List.foldl_cons, List.foldl_nil]
      have hlen : ((List.range n).foldl (fun g1 (dy : Nat) =>
          (List.range b.width.toNat).foldl (fun g2 (dx : Nat) =>
            writeCell g2 (((b.y + (dy : Int)) * GRID_WIDTH + b.x) + (dx : Int))
              (codeOf b.type)) g1) g).length = 20 := by
        rw [foldl_length_inv _ _ ?_ g, hg]
        intro g1 dy
        rw [foldl_length_inv _ _ ?_ g1]
        intro g2 dx
        exact length_writeCell _ _ _
      rw [rowFold_getD_miss _ _ _ _ _ hlen hk ?_]
      · exact ih (by omega)
      · intro dx hdx heq
        exact hcov ((covers_iff_write b hb k hk).mpr ⟨n, by omega, dx, hdx, heq⟩)
  exact main b.height.toNat (le_refl _)

lemma overlap_of_common_cell (a b : SolverBlock) (cx cy : Int)
    (ha : covers a cx cy) (hb : covers b cx cy) : overlapRect a b := by
  unfold covers at *
  unfold overlapRect
  omega

lemma validBoard_append_singleton (bs : List SolverBlock) (b : SolverBlock)
    (h : validBoard (bs ++ [b])) :
    validBoard bs ∧ inGrid b ∧ ∀ a ∈ bs, ¬ overlapRect a b := by
  obtain ⟨hg, hp⟩ := h
  rw [List.pairwise_append] at hp
  refine ⟨⟨fun x hx => hg x (by simp [hx]), hp.1⟩, hg b (by simp), ?_⟩
  intro a ha
  exact hp.2.2 a ha b (by simp)

lemma encodeState_append_singleton (bs : List SolverBlock) (b : SolverBlock) :
    encodeState (bs ++ [b]) = writeBlock (encodeState bs) b := by
  unfold encodeState
  rw [List.foldl_append, List.foldl_cons, List.foldl_nil]

lemma encode_getD_covered (bs : List SolverBlock) (b : SolverBlock) (k : Nat)
    (hval : validBoard bs) (hmem : b ∈ bs) (hk : k < 20)
    (hcov : covers b (cellX k) (cellY k)) :
    (encodeState bs).getD k 0 = codeOf b.type := by
  induction bs using List.reverseRecOn with
  | nil => cases hmem
  | append_singleton bs blast ih =>
    obtain ⟨hvbs, hgb, hno⟩ := validBoard_append_singleton bs blast hval
    rw [encodeState_append_singleton]
    rcases List.mem_append.mp hmem with hmem2 | hmem2
    · -- `b` is among the earlier blocks; `blast` cannot cover the same cell
      have hnc : ¬ covers blast (cellX k) (cellY k) := by
        intro hc
        exact hno b hmem2 (overlap_of_common_cell b blast _ _ hcov hc)
      rw [writeBlock_getD_miss _ _ _ (length_encodeState bs) hk hgb hnc]
      exact ih hvbs hmem2
    · have hbb : b = blast := by simpa using hmem2
      subst hbb
      exact writeBlock_getD_hit _ _ _ (length_encodeState bs) hk hgb hcov

lemma encode_getD_empty (bs : List SolverBlock) (k : Nat)
    (hval : validBoard bs) (hk : k < 20)
    (hnc : ∀ b ∈ bs, ¬ covers b (cellX k) (cellY k)) :
    (encodeState bs).getD k 0 = 0 := by
  induction bs using List.reverseRecOn with
  | nil =>
    unfold encodeState
    rw [List.foldl_nil]
    rw [List.getD_eq_getElem _ _ (by simpa [GRID_WIDTH, GRID_HEIGHT] using hk)]
    simp
  | append_singleton bs blast ih =>
    obtain ⟨hvbs, hgb, -⟩ := validBoard_append_singleton bs blast hval
    rw [encodeState_append_singleton]
    rw [writeBlock_getD_miss _ _ _ (length_encodeState bs) hk hgb (hnc blast (by simp))]
    exact ih hvbs fun b hb => hnc b (by simp [hb])

lemma codeOf_inj (t1 t2 : BlockType) (h : codeOf t1 = codeOf t2) : t1 = t2 := by
  cases t1 <;> cases t2 <;> first | rfl | (exfalso; simp [codeOf] at h)

lemma codeOf_ne_zero (t : BlockType) : codeOf t ≠ 0 := by
  cases t <;> simp [codeOf]

lemma covers_in_cell_range (b : SolverBlock) (cx cy : Int) (hb : inGrid b)
    (hcov : covers b cx cy) :
    0 ≤ cx ∧ cx < 4 ∧ 0 ≤ cy ∧ cy < 5 := by
  unfold covers at hcov
  unfold inGrid GRID_WIDTH GRID_HEIGHT at hb
  omega

lemma cell_of_coords (cx cy : Int) (h : 0 ≤ cx ∧ cx < 4 ∧ 0 ≤ cy ∧ cy < 5) :
    ∃ k : Nat, k < 20 ∧ cellX k = cx ∧ cellY k = cy := by
  refine ⟨(cy * 4 + cx).toNat, ?_, ?_, ?_⟩
  · omega
  · unfold cellX; omega
  · unfold cellY; omega

lemma encode_eq_of_cellKind_eq (bs1 bs2 : List SolverBlock)
    (h1 : validBoard bs1) (h2 : validBoard bs2)
    (hocc : ∀ cx cy t, cellKind bs1 cx cy t ↔ cellKind bs2 cx cy t) :
    encodeState bs1 = encodeState bs2 := by
  apply List.ext_getElem
  · rw [length_encodeState, length_encodeState]
  · intro k hk1 hk2
    rw [length_encodeState] at hk1
    rw [← List.getD_eq_getElem (encodeState bs1) 0, ← List.getD_eq_getElem (encodeState bs2) 0]
    by_cases hcv : ∃ b ∈ bs1, covers b (cellX k) (cellY k)
    · obtain ⟨b, hb, hcov⟩ := hcv
      have hck : cellKind bs2 (cellX k) (cellY k) b.type :=
        (hocc _ _ _).mp ⟨b, hb, hcov, rfl⟩
      obtain ⟨b2, hb2, hcov2, ht2⟩ := hck
      rw [encode_getD_covered bs1 b k h1 hb hk1 hcov,
        encode_getD_covered bs2 b2 k h2 hb2 hk1 hcov2, ht2]
    · push_neg at hcv
      have hcv2 : ∀ b ∈ bs2, ¬ covers b (cellX k) (cellY k) := by
        intro b hb hcov
        have hck : cellKind bs1 (cellX k) (cellY k) b.type :=
          (hocc _ _ _).mpr ⟨b, hb, hcov, rfl⟩
        obtain ⟨b1, hb1, hcov1, -⟩ := hck
        exact hcv b1 hb1 hcov1
      rw [encode_getD_empty bs1 k h1 hk1 hcv, encode_getD_empty bs2 k h2 hk1 hcv2]

lemma cellKind_iff_of_encode_eq (bs1 bs2 : List SolverBlock)
    (h1 : validBoard bs1) (h2 : validBoard bs2)
    (henc : encodeState bs1 = encodeState bs2) :
    ∀ cx cy t, cellKind bs1 cx cy t ↔ cellKind bs2 cx cy t := by
  have main : ∀ (a1 a2 : List SolverBlock), validBoard a1 → validBoard a2 →
      encodeState a1 = encodeState a2 →
      ∀ cx cy t, cellKind a1 cx cy t → cellKind a2 cx cy t := by
    intro a1 a2 hv1 hv2 he cx cy t hck
    obtain ⟨b, hb, hcov, ht⟩ := hck
    obtain ⟨k, hk, hcx, hcy⟩ :=
      cell_of_coords cx cy (covers_in_cell_range b cx cy (hv1.1 b hb) hcov)
    subst hcx hcy
    have hc1 : (encodeState a1).getD k 0 = codeOf b.type :=
      encode_getD_covered a1 b k hv1 hb hk hcov
    by_cases hcv2 : ∃ b2 ∈ a2, covers b2 (cellX k) (cellY k)
    · obtain ⟨b2, hb2, hcov2⟩ := hcv2
      have hc2 : (encodeState a2).getD k 0 = codeOf b2.type :=
        encode_getD_covered a2 b2 k hv2 hb2 hk hcov2
      have : codeOf b2.type = codeOf b.type := by
        rw [← hc2, ← he, hc1]
      refine ⟨b2, hb2, hcov2, ?_⟩
      rw [codeOf_inj _ _ this, ht]
    · push_neg at hcv2
      have hc2 : (encodeState a2).getD k 0 = 0 := encode_getD_empty a2 k hv2 hk hcv2
      rw [he, hc2] at hc1
      exact absurd hc1.symm (codeOf_ne_zero b.type)
  intro cx cy t
  exact ⟨main bs1 bs2 h1 h2 henc cx cy t, main bs2 bs1 h2 h1 henc.symm cx cy t⟩

lemma overlapRect_symm_not (a b : SolverBlock) (h : ¬ overlapRect a b) : ¬ overlapRect b a := by
  unfold overlapRect at *
  omega

lemma validBoard_of_perm (bs1 bs2 : List SolverBlock) (h : validBoard bs1)
    (hp : List.Perm bs1 bs2) : validBoard bs2 := by
  obtain ⟨hg, hpw⟩ := h
  constructor
  · intro b hb
    exact hg b (hp.mem_iff.mpr hb)
  · refine (hp.pairwise_iff ?_).mp hpw
    intro a b hab
    exact overlapRect_symm_not a b hab

lemma cellKind_of_perm (bs1 bs2 : List SolverBlock) (hp : List.Perm bs1 bs2) :
    ∀ cx cy t, cellKind bs1 cx cy t ↔ cellKind bs2 cx cy t := by
  intro cx cy t
  constructor
  · rintro ⟨b, hb, hrest⟩
    exact ⟨b, hp.mem_iff.mp hb, hrest⟩
  · rintro ⟨b, hb, hrest⟩
    exact ⟨b, hp.mem_iff.mpr hb, hrest⟩

lemma encode_eq_of_perm (bs1 bs2 : List SolverBlock) (h1 : validBoard bs1)
    (hp : List.Perm bs1 bs2) : encodeState bs1 = encodeState bs2 :=
  encode_eq_of_cellKind_eq bs1 bs2 h1 (validBoard_of_perm bs1 bs2 h1 hp)
    (cellKind_of_perm bs1 bs2 hp)

/-! ## A canonical key determines the board up to permutation -/

lemma solverBlock_ext (a b : SolverBlock) (ht : a.type = b.type) (hx : a.x = b.x)
    (hy : a.y = b.y) (hw : a.width = b.width) (hh : a.height = b.height) : a = b := by
  cases a
  cases b
  simp only at ht hx hy hw hh
  simp [ht, hx, hy, hw, hh]

lemma stdDims_pos (b : SolverBlock) (h : stdDims b) : 1 ≤ b.width ∧ 1 ≤ b.height := by
  obtain ⟨hk, hv, hh, hp⟩ := h
  cases htype : b.type
  · have := hk htype; omega
  · have := hv htype; omega
  · have := hh htype; omega
  · have := hp htype; omega

lemma covers_self (b : SolverBlock) (h : stdDims b) : covers b b.x b.y := by
  have := stdDims_pos b h
  unfold covers
  omega

lemma measure_le_of_covers (b : SolverBlock) (cx cy : Int) (hcov : covers b cx cy) :
    b.y * 4 + b.x ≤ cy * 4 + cx ∧
      (b.y * 4 + b.x = cy * 4 + cx ↔ cx = b.x ∧ cy = b.y) := by
  unfold covers at hcov
  constructor
  · omega
  · constructor
    · intro he; omega
    · rintro ⟨rfl, rfl⟩; omega

lemma exists_min_measure (bs : List SolverBlock) (hne : bs ≠ []) :
    ∃ p ∈ bs, ∀ q ∈ bs, p.y * 4 + p.x ≤ q.y * 4 + q.x := by
  induction bs with
  | nil => exact absurd rfl hne
  | cons a t ih =>
    rcases t with _ | ⟨b, t2⟩
    · exact ⟨a, by simp, by simp⟩
    · obtain ⟨p, hp, hmin⟩ := ih (by simp)
      rcases le_or_lt (a.y * 4 + a.x) (p.y * 4 + p.x) with hcase | hcase
      · refine ⟨a, by simp, ?_⟩
        intro q hq
        rcases List.mem_cons.mp hq with rfl | hq2
        · omega
        · have := hmin q hq2; omega
      · refine ⟨p, by simp [hp], ?_⟩
        intro q hq
        rcases List.mem_cons.mp hq with rfl | hq2
        · omega
        · exact hmin q hq2

lemma validBoard_cons (p : SolverBlock) (l : List SolverBlock)
    (h : validBoard (p :: l)) :
    validBoard l ∧ ∀ b ∈ l, ¬ overlapRect p b := by
  obtain ⟨hg, hpw⟩ := h
  rw [List.pairwise_cons] at hpw
  exact ⟨⟨fun b hb => hg b (by simp [hb]), hpw.2⟩, hpw.1⟩

lemma cellKind_erase (bs : List SolverBlock) (p : SolverBlock)
    (hval : validBoard bs) (hp : p ∈ bs) (cx cy : Int) (t : BlockType) :
    cellKind (bs.erase p) cx cy t ↔ (cellKind bs cx cy t ∧ ¬ covers p cx cy) := by
  have hperm := List.perm_cons_erase hp
  have hvc : validBoard (p :: bs.erase p) := validBoard_of_perm bs _ hval hperm
  obtain ⟨-, hno⟩ := validBoard_cons p (bs.erase p) hvc
  constructor
  · rintro ⟨b, hb, hcov, ht⟩
    refine ⟨⟨b, List.mem_of_mem_erase hb, hcov, ht⟩, ?_⟩
    intro hpc
    exact hno b hb (overlap_of_common_cell p b cx cy hpc hcov)
  · rintro ⟨⟨b, hb, hcov, ht⟩, hpc⟩
    have hbmem : b ∈ p :: bs.erase p := hperm.mem_iff.mp hb
    rcases List.mem_cons.mp hbmem with rfl | hb2
    · exact absurd hcov hpc
    · exact ⟨b, hb2, hcov, ht⟩

lemma perm_of_cellKind_eq (n : Nat) (bs1 bs2 : List SolverBlock) (hn : bs1.length = n)
    (h1 : validBoard bs1) (h2 : validBoard bs2)
    (hs1 : ∀ b ∈ bs1, stdDims b) (hs2 : ∀ b ∈ bs2, stdDims b)
    (hocc : ∀ cx cy t, cellKind bs1 cx cy t ↔ cellKind bs2 cx cy t) :
    List.Perm bs1 bs2 := by
  induction n generalizing bs1 bs2 with
  | zero =>
    have hb1 : bs1 = [] := List.length_eq_zero.mp hn
    subst hb1
    have hb2 : bs2 = [] := by
      rcases bs2 with _ | ⟨b, t⟩
      · rfl
      · exfalso
        have hck : cellKind (b :: t) b.x b.y b.type :=
          ⟨b, by simp, covers_self b (hs2 b (by simp)), rfl⟩
        obtain ⟨q, hq, -⟩ := (hocc b.x b.y b.type).mpr hck
        cases hq
    subst hb2
    exact List.Perm.refl []
  | succ n ih =>
    have hne1 : bs1 ≠ [] := by
      intro hcon
      rw [hcon] at hn
      cases hn
    obtain ⟨p1, hp1, hmin1⟩ := exists_min_measure bs1 hne1
    -- claim A: the top-left of `p1` is minimal among all covered cells of `bs1`
    have hminCell : ∀ (q : SolverBlock) (cx cy : Int), q ∈ bs1 → covers q cx cy →
        p1.y * 4 + p1.x ≤ cy * 4 + cx := by
      intro q cx cy hq hcov
      have h3 := (measure_le_of_covers q cx cy hcov).1
      have h4 := hmin1 q hq
      omega
    -- transport the top-left cell of `p1` to `bs2`
    have hck1 : cellKind bs1 p1.x p1.y p1.type :=
      ⟨p1, hp1, covers_self p1 (hs1 p1 hp1), rfl⟩
    obtain ⟨p2, hp2, hcov2, ht2⟩ := (hocc p1.x p1.y p1.type).mp hck1
    -- the covering block of `bs2` has its own top-left at the same cell
    have hck2 : cellKind bs2 p2.x p2.y p2.type :=
      ⟨p2, hp2, covers_self p2 (hs2 p2 hp2), rfl⟩
    obtain ⟨q1, hq1, hcovq1, -⟩ := (hocc p2.x p2.y p2.type).mpr hck2
    have h5 := (measure_le_of_covers p2 p1.x p1.y hcov2).1
    have h6 := hminCell q1 p2.x p2.y hq1 hcovq1
    have h7 : p2.y * 4 + p2.x = p1.y * 4 + p1.x := by omega
    have h8 := ((measure_le_of_covers p2 p1.x p1.y hcov2).2).mp h7
    -- `p2` is the same block record as `p1`
    have hsame : p2 = p1 := by
      obtain ⟨hk1, hv1, hh1, hpw1⟩ := hs1 p1 hp1
      obtain ⟨hk2, hv2, hh2, hpw2⟩ := hs2 p2 hp2
      refine solverBlock_ext p2 p1 ht2 (by omega) (by omega) ?_ ?_
      · cases htp : p1.type with
        | KING => have a1 := hk1 htp; have a2 := hk2 (by rw [ht2, htp]); omega
        | VERTICAL => have a1 := hv1 htp; have a2 := hv2 (by rw [ht2, htp]); omega
        | HORIZONTAL => have a1 := hh1 htp; have a2 := hh2 (by rw [ht2, htp]); omega
        | PAWN => have a1 := hpw1 htp; have a2 := hpw2 (by rw [ht2, htp]); omega
      · cases htp : p1.type with
        | KING => have a1 := hk1 htp; have a2 := hk2 (by rw [ht2, htp]); omega
        | VERTICAL => have a1 := hv1 htp; have a2 := hv2 (by rw [ht2, htp]); omega
        | HORIZONTAL => have a1 := hh1 htp; have a2 := hh2 (by rw [ht2, htp]); omega
        | PAWN => have a1 := hpw1 htp; have a2 := hpw2 (by rw [ht2, htp]); omega
    subst hsame
    -- erase the common minimal block from both boards and use the IH
    have hp1b2 : p2 ∈ bs2 := hp2
    have hperm1 := List.perm_cons_erase hp1
    have hperm2 := List.perm_cons_erase hp1b2
    have hv1e : validBoard (bs1.erase p2) :=
      (validBoard_cons p2 _ (validBoard_of_perm bs1 _ h1 hperm1)).1
    have hv2e : validBoard (bs2.erase p2) :=
      (validBoard_cons p2 _ (validBoard_of_perm bs2 _ h2 hperm2)).1
    have htail : List.Perm (bs1.erase p2) (bs2.erase p2) := by
      refine ih (bs1.erase p2) (bs2.erase p2) ?_ hv1e hv2e ?_ ?_ ?_
      · rw [List.length_erase_of_mem hp1, hn]
        omega
      · intro b hb
        exact hs1 b (List.mem_of_mem_erase hb)
      · intro b hb
        exact hs2 b (List.mem_of_mem_erase hb)
      · intro cx cy t
        rw [cellKind_erase bs1 p2 h1 hp1 cx cy t,
          cellKind_erase bs2 p2 h2 hp1b2 cx cy t, hocc cx cy t]
    exact hperm1.trans ((htail.cons p2).trans hperm2.symm)

/-! ## Claims C3, C4, C7, C10 -/

/-- C3: for every in-range piece index `i`, direction `d` and piece list,
`canMove i d blocks` returns true iff (a) the rectangle of piece `i`
translated by one cell in direction `d` lies within
`[0, GRID_WIDTH) × [0, GRID_HEIGHT)` and (b) the translated rectangle
overlaps no other piece's current rectangle, overlap being the
specification's AABB formula; and applying the move leaves every other
piece unchanged. -/
theorem claim_C3_canMove_iff (i : Nat) (d : Direction) (bs : List SolverBlock)
    (h : i < bs.length) :
    (canMove i d bs = true ↔
      inGrid (moveBlock d (bs.get ⟨i, h⟩)) ∧
      ∀ j, ∀ hj : j < bs.length, j ≠ i →
        ¬ overlapRect (moveBlock d (bs.get ⟨i, h⟩)) (bs.get ⟨j, hj⟩)) ∧
    (∀ j, ∀ hj : j < bs.length, j ≠ i →
      (applyMove i d bs).get ⟨j, by simpa [applyMove] using hj⟩ = bs.get ⟨j, hj⟩) :=
  ⟨canMove_iff i d bs h, fun j hj hne => get_applyMove_ne i d bs j hj hne⟩

/-- Witness for C3 at a concrete board: the lone King at (1, 2) may move UP,
and the characterization yields that its translated rectangle is in-grid. -/
theorem claim_C3_witness :
    inGrid (moveBlock Direction.UP (exKingS.get ⟨0, by decide⟩)) :=
  (((claim_C3_canMove_iff 0 Direction.UP exKingS (by decide)).1).mp (by decide)).1

/-- C4: for valid boards, the canonical key is a function of
occupancy-by-kind alone: boards with identical cell-by-cell occupancy get
equal keys, and in particular any permutation of the block list (such as
swapping two same-kind pieces) gets an equal key — piece-index identity
never influences the key. -/
theorem claim_C4_encode_occupancy (bs1 bs2 : List SolverBlock)
    (h1 : validBoard bs1) (h2 : validBoard bs2) :
    ((∀ cx cy t, cellKind bs1 cx cy t ↔ cellKind bs2 cx cy t) →
      encodeState bs1 = encodeState bs2) ∧
    (List.Perm bs1 bs2 → encodeState bs1 = encodeState bs2) :=
  ⟨encode_eq_of_cellKind_eq bs1 bs2 h1 h2, encode_eq_of_perm bs1 bs2 h1⟩

/-- Witness for C4: two same-kind pawns listed in either order produce the
same canonical key. -/
theorem claim_C4_witness : encodeState exPawns = encodeState exPawnsSwap :=
  (claim_C4_encode_occupancy exPawns exPawnsSwap
      ⟨by decide, by decide⟩ ⟨by decide, by decide⟩).2
    (List.Perm.swap _ _ _)

/-- C7: a board whose King already sits at the goal cell (1, 3) makes
`findSolution` return the empty move list immediately. -/
theorem claim_C7_already_solved (blocks : List Block) (maxDepth : Nat)
    (h : isSolved (blocks.map toSolverBlock) = true) :
    findSolution blocks maxDepth = some [] := by
  unfold findSolution findSolutionFuel
  rw [if_pos h]

/-- Witness for C7: the solved one-King fixture returns `[]`. -/
theorem claim_C7_witness : findSolution exKingSolved 200 = some [] :=
  claim_C7_already_solved exKingSolved 200 (by decide)

/-- C10: the result of `findSolution` depends only on each block's
`type`, `x`, `y`, `width` and `height`: two equal-length inputs agreeing
pointwise on those five fields (but with arbitrary `id`/`label`) produce
identical output. -/
theorem claim_C10_field_independence (bs1 bs2 : List Block) (maxDepth : Nat)
    (hlen : bs1.length = bs2.length)
    (hagree : ∀ i, i < bs1.length →
      (bs1.getD i default).type = (bs2.getD i default).type ∧
      (bs1.getD i default).x = (bs2.getD i default).x ∧
      (bs1.getD i default).y = (bs2.getD i default).y ∧
      (bs1.getD i default).width = (bs2.getD i default).width ∧
      (bs1.getD i default).height = (bs2.getD i default).height) :
    findSolution bs1 maxDepth = findSolution bs2 maxDepth := by
  have hmap : bs1.map toSolverBlock = bs2.map toSolverBlock := by
    apply List.ext_getElem (by simpa using hlen)
    intro i hi1 hi2
    rw [List.length_map] at hi1 hi2
    have hg1 : bs1.getD i default = bs1.get ⟨i, hi1⟩ := List.getD_eq_getElem bs1 default hi1
    have hg2 : bs2.getD i default = bs2.get ⟨i, hi2⟩ := List.getD_eq_getElem bs2 default hi2
    obtain ⟨ht, hx, hy, hw, hh⟩ := hagree i hi1
    rw [hg1, hg2] at ht hx hy hw hh
    simp only [List.getElem_map]
    exact solverBlock_ext _ _ ht hx hy hw hh
  unfold findSolution findSolutionFuel initConfig
  rw [hmap]

/-- Witness for C10: the one-King fixture and its relabelled sibling give
identical solver output. -/
theorem claim_C10_witness : findSolution exKing 200 = findSolution exKingRelabel 200 :=
  claim_C10_field_independence exKing exKingRelabel 200 (by decide)
    (fun i hi => by
      match i, hi with
      | 0, _ => exact ⟨rfl, rfl, rfl, rfl, rfl⟩)

/-! ## The expansion of one dequeued node -/

lemma mem_pairsFor (n : Nat) (i : Nat) (d : Direction) :
    (i, d) ∈ pairsFor n ↔ i < n := by
  unfold pairsFor dirs
  rw [List.mem_flatMap]
  constructor
  · rintro ⟨j, hj, hmem⟩
    rw [List.mem_map] at hmem
    obtain ⟨d2, -, heq⟩ := hmem
    cases heq
    exact List.mem_range.mp hj
  · intro hi
    refine ⟨i, List.mem_range.mpr hi, ?_⟩
    rw [List.mem_map]
    exact ⟨d, by cases d <;> simp, rfl⟩

lemma expandPairs_inr_spec (maxDepth : Nat) (cur : SolverState) :
    ∀ (pairs : List (Nat × Direction)) (q q2 : List SolverState)
      (v v2 : List (List Int)),
      (∀ p ∈ pairs, p.1 < cur.blocks.length) →
      expandPairs maxDepth cur pairs q v = Sum.inr (q2, v2) →
      ∃ news : List SolverState, q2 = q ++ news ∧
        (∀ e ∈ news, NewEntrySpec maxDepth cur v e) ∧
        (∀ k ∈ v, k ∈ v2) ∧
        (∀ k ∈ v2, k ∈ v ∨ ∃ e ∈ news, encodeState e.blocks = k) ∧
        ((q.map fun e => encodeState e.blocks).Nodup →
          (∀ e ∈ q, encodeState e.blocks ∈ v) →
          ((q2.map fun e => encodeState e.blocks).Nodup ∧
            ∀ e ∈ q2, encodeState e.blocks ∈ v2)) ∧
        (∀ i d, (i, d) ∈ pairs → canMove i d cur.blocks = true →
          (isSolved (applyMove i d cur.blocks) = true ∨ cur.path.length + 1 < maxDepth) →
          encodeState (applyMove i d cur.blocks) ∈ v2) := by
  intro pairs
  induction pairs with
  | nil =>
    intro q q2 v v2 hpairs hrun
    unfold expandPairs at hrun
    injection hrun with hrun2
    injection hrun2 with hq hv
    subst hq
    subst hv
    refine ⟨[], by simp, by simp, fun k hk => hk, fun k hk => Or.inl hk,
      fun hnd hqv => ⟨hnd, hqv⟩, ?_⟩
    intro i d hmem
    cases hmem
  | cons pr rest ih =>
    intro q q2 v v2 hpairs hrun
    obtain ⟨i, d⟩ := pr
    rw [expandPairs] at hrun
    by_cases hcm : canMove i d cur.blocks
    · rw [if_pos hcm] at hrun
      simp only at hrun
      by_cases hvis : encodeState (applyMove i d cur.blocks) ∈ v
      · rw [if_pos hvis] at hrun
        obtain ⟨news, h1, h2, h3, h4, h56, h7⟩ :=
          ih q q2 v v2 (fun p hp => hpairs p (by simp [hp])) hrun
        refine ⟨news, h1, h2, h3, h4, h56, ?_⟩
        intro i2 d2 hmem hcm2 hdep
        rcases List.mem_cons.mp hmem with heq | hmem2
        · injection heq with he1 he2
          subst he1
          subst he2
          exact h3 _ hvis
        · exact h7 i2 d2 hmem2 hcm2 hdep
      · rw [if_neg hvis] at hrun
        by_cases hsol : isSolved (applyMove i d cur.blocks)
        · rw [if_pos hsol] at hrun
          cases hrun
        · rw [if_neg hsol] at hrun
          by_cases hdep : cur.path.length + 1 < maxDepth
          · rw [if_pos (by simpa using hdep)] at hrun
            obtain ⟨news, h1, h2, h3, h4, h56, h7⟩ :=
              ih _ q2 _ v2 (fun p hp => hpairs p (by simp [hp])) hrun
            refine ⟨(⟨applyMove i d cur.blocks, cur.path ++ [⟨i, d⟩]⟩ : SolverState) :: news, ?_, ?_, ?_, ?_, ?_, ?_⟩
            · rw [h1]
              simp
            · intro e he
              rcases List.mem_cons.mp he with rfl | he2
              · exact ⟨i, d, hpairs (i, d) (by simp), hcm, rfl, rfl, by simpa using hsol,
                  by simpa using hdep, hvis⟩
              · obtain ⟨i2, d2, hi2, hcm2, hb2, hp2, hs2, hl2, hv2x⟩ := h2 e he2
                refine ⟨i2, d2, hi2, hcm2, hb2, hp2, hs2, hl2, ?_⟩
                intro hcon
                exact hv2x (List.mem_cons_of_mem _ hcon)
            · intro k hk
              exact h3 k (List.mem_cons_of_mem _ hk)
            · intro k hk
              rcases h4 k hk with hk2 | hk2
              · rcases List.mem_cons.mp hk2 with rfl | hk3
                · exact Or.inr ⟨_, List.mem_cons_self _ _, rfl⟩
                · exact Or.inl hk3
              · obtain ⟨e, he, hke⟩ := hk2
                exact Or.inr ⟨e, List.mem_cons_of_mem _ he, hke⟩
            · intro hnd hqv
              have hnd2 : ((q ++ [(⟨applyMove i d cur.blocks, cur.path ++ [⟨i, d⟩]⟩ : SolverState)]).map
                  fun e => encodeState e.blocks).Nodup := by
                rw [List.map_append, List.nodup_append]
                refine ⟨hnd, by simp, ?_⟩
                intro k hk hk2
                simp only [List.map_cons, List.map_nil, List.mem_singleton] at hk2
                rw [List.mem_map] at hk
                obtain ⟨e, he, hke⟩ := hk
                apply hvis
                rw [← hk2, ← hke]
                exact hqv e he
              have hqv2 : ∀ e ∈ q ++ [(⟨applyMove i d cur.blocks, cur.path ++ [⟨i, d⟩]⟩ : SolverState)],
                  encodeState e.blocks ∈ encodeState (applyMove i d cur.blocks) :: v := by
                intro e he
                rcases List.mem_append.mp he with he2 | he2
                · exact List.mem_cons_of_mem _ (hqv e he2)
                · rw [List.mem_singleton] at he2
                  subst he2
                  exact List.mem_cons_self _ _
              exact h56 hnd2 hqv2
            · intro i2 d2 hmem hcm2 hdep2
              rcases List.mem_cons.mp hmem with heq | hmem2
              · injection heq with he1 he2
                subst he1
                subst he2
                exact h3 _ (List.mem_cons_self _ _)
              · exact h7 i2 d2 hmem2 hcm2 hdep2
          · rw [if_neg (by simpa using hdep)] at hrun
            obtain ⟨news, h1, h2, h3, h4, h56, h7⟩ :=
              ih q q2 v v2 (fun p hp => hpairs p (by simp [hp])) hrun
            refine ⟨news, h1, h2, h3, h4, h56, ?_⟩
            intro i2 d2 hmem hcm2 hdep2
            rcases List.mem_cons.mp hmem with heq | hmem2
            · injection heq with he1 he2
              subst he1
              subst he2
              rcases hdep2 with hdep2 | hdep2
              · exact absurd hdep2 (by simpa using hsol)
              · exact absurd hdep2 hdep
            · exact h7 i2 d2 hmem2 hcm2 hdep2
    · rw [if_neg hcm] at hrun
      obtain ⟨news, h1, h2, h3, h4, h56, h7⟩ :=
        ih q q2 v v2 (fun p hp => hpairs p (by simp [hp])) hrun
      refine ⟨news, h1, h2, h3, h4, h56, ?_⟩
      intro i2 d2 hmem hcm2 hdep2
      rcases List.mem_cons.mp hmem with heq | hmem2
      · injection heq with he1 he2
        subst he1
        subst he2
        exact absurd hcm2 (by simpa using hcm)
      · exact h7 i2 d2 hmem2 hcm2 hdep2

lemma expandPairs_inl_spec (maxDepth : Nat) (cur : SolverState) :
    ∀ (pairs : List (Nat × Direction)) (q : List SolverState)
      (v : List (List Int)) (ps : List SimplifiedMove),
      expandPairs maxDepth cur pairs q v = Sum.inl ps →
      ∃ i d, (i, d) ∈ pairs ∧ canMove i d cur.blocks = true ∧
        isSolved (applyMove i d cur.blocks) = true ∧
        ps = cur.path ++ [⟨i, d⟩] ∧
        encodeState (applyMove i d cur.blocks) ∉ v := by
  intro pairs
  induction pairs with
  | nil =>
    intro q v ps hrun
    cases hrun
  | cons pr rest ih =>
    intro q v ps hrun
    obtain ⟨i, d⟩ := pr
    rw [expandPairs] at hrun
    by_cases hcm : canMove i d cur.blocks
    · rw [if_pos hcm] at hrun
      simp only at hrun
      by_cases hvis : encodeState (applyMove i d cur.blocks) ∈ v
      · rw [if_pos hvis] at hrun
        obtain ⟨i2, d2, hmem, hrest⟩ := ih q v ps hrun
        exact ⟨i2, d2, List.mem_cons_of_mem _ hmem, hrest⟩
      · rw [if_neg hvis] at hrun
        by_cases hsol : isSolved (applyMove i d cur.blocks)
        · rw [if_pos hsol] at hrun
          injection hrun with hps
          exact ⟨i, d, List.mem_cons_self _ _, hcm, by simpa using hsol, hps.symm, hvis⟩
        · rw [if_neg hsol] at hrun
          by_cases hdep : cur.path.length + 1 < maxDepth
          · rw [if_pos (by simpa using hdep)] at hrun
            obtain ⟨i2, d2, hmem, hcm2, hsol2, hps2, hvis2⟩ := ih _ _ ps hrun
            refine ⟨i2, d2, List.mem_cons_of_mem _ hmem, hcm2, hsol2, hps2, ?_⟩
            intro hcon
            exact hvis2 (List.mem_cons_of_mem _ hcon)
          · rw [if_neg (by simpa using hdep)] at hrun
            obtain ⟨i2, d2, hmem, hrest⟩ := ih q v ps hrun
            exact ⟨i2, d2, List.mem_cons_of_mem _ hmem, hrest⟩
    · rw [if_neg hcm] at hrun
      obtain ⟨i2, d2, hmem, hrest⟩ := ih q v ps hrun
      exact ⟨i2, d2, List.mem_cons_of_mem _ hmem, hrest⟩

/-! ## Stepping the search loop -/

lemma solveStep_next_elim (maxDepth : Nat) (cfg cfg2 : SearchConfig)
    (h : solveStep maxDepth cfg = StepResult.next cfg2) :
    ∃ hlt : cfg.head < cfg.queue.length, ¬ MAX_ITERATIONS < cfg.head ∧
      expandNode maxDepth (cfg.queue.get ⟨cfg.head, hlt⟩) cfg.queue cfg.visited =
        Sum.inr (cfg2.queue, cfg2.visited) ∧ cfg2.head = cfg.head + 1 := by
  unfold solveStep at h
  by_cases hlt : cfg.head < cfg.queue.length
  · rw [dif_pos hlt] at h
    by_cases hmax : MAX_ITERATIONS < cfg.head
    · rw [if_pos hmax] at h
      cases h
    · rw [if_neg hmax] at h
      simp only at h
      rcases hexp : expandNode maxDepth (cfg.queue.get ⟨cfg.head, hlt⟩) cfg.queue cfg.visited
        with ps | ⟨q2, v2⟩
      · rw [hexp] at h
        cases h
      · rw [hexp] at h
        injection h with h2
        refine ⟨hlt, hmax, ?_, ?_⟩
        · rw [← h2]
          exact hexp
        · rw [← h2]
  · rw [dif_neg hlt] at h
    cases h

lemma solveStep_done_some_elim (maxDepth : Nat) (cfg : SearchConfig)
    (ps : List SimplifiedMove)
    (h : solveStep maxDepth cfg = StepResult.done (some ps)) :
    ∃ hlt : cfg.head < cfg.queue.length, ¬ MAX_ITERATIONS < cfg.head ∧
      expandNode maxDepth (cfg.queue.get ⟨cfg.head, hlt⟩) cfg.queue cfg.visited =
        Sum.inl ps := by
  unfold solveStep at h
  by_cases hlt : cfg.head < cfg.queue.length
  · rw [dif_pos hlt] at h
    by_cases hmax : MAX_ITERATIONS < cfg.head
    · rw [if_pos hmax] at h
      injection h with h2
      cases h2
    · rw [if_neg hmax] at h
      simp only at h
      rcases hexp : expandNode maxDepth (cfg.queue.get ⟨cfg.head, hlt⟩) cfg.queue cfg.visited
        with ps2 | ⟨q2, v2⟩
      · rw [hexp] at h
        injection h with h2
        injection h2 with h3
        refine ⟨hlt, hmax, ?_⟩
        rw [← h3]
        exact hexp
      · rw [hexp] at h
        cases h
  · rw [dif_neg hlt] at h
    injection h with h2
    cases h2

lemma iterN_succ_elim (maxDepth n : Nat) (cfg cfg2 : SearchConfig)
    (h : iterN maxDepth (n + 1) cfg = some cfg2) :
    ∃ cfgm, solveStep maxDepth cfg = StepResult.next cfgm ∧
      iterN maxDepth n cfgm = some cfg2 := by
  rw [iterN] at h
  rcases hstep : solveStep maxDepth cfg with r | cfgm
  · rw [hstep] at h
    cases h
  · rw [hstep] at h
    exact ⟨cfgm, rfl, h⟩

lemma runLoop_some_elim (maxDepth : Nat) :
    ∀ (fuel : Nat) (cfg : SearchConfig) (ps : List SimplifiedMove),
      runLoop maxDepth fuel cfg = some ps →
      ∃ n cfg2, iterN maxDepth n cfg = some cfg2 ∧
        solveStep maxDepth cfg2 = StepResult.done (some ps) := by
  intro fuel
  induction fuel with
  | zero =>
    intro cfg ps hrun
    cases hrun
  | succ fuel ih =>
    intro cfg ps hrun
    rw [runLoop] at hrun
    rcases hstep : solveStep maxDepth cfg with r | cfgm
    · rw [hstep] at hrun
      simp only at hrun
      refine ⟨0, cfg, rfl, ?_⟩
      rw [hstep, hrun]
    · rw [hstep] at hrun
      obtain ⟨n, cfg2, hiter, hdone⟩ := ih cfgm ps hrun
      refine ⟨n + 1, cfg2, ?_, hdone⟩
      rw [iterN, hstep]
      exact hiter

/-! ## Preservation of the small invariants -/

lemma replay_snoc (s b : List SolverBlock) (ms : List SimplifiedMove) (m : SimplifiedMove)
    (h : replay s ms = some b) (hidx : m.blockIndex < b.length)
    (hcm : canMove m.blockIndex m.direction b = true) :
    replay s (ms ++ [m]) = some (applyMove m.blockIndex m.direction b) := by
  rw [replay_append, h]
  show replay b [m] = _
  rw [replay, if_pos ⟨hidx, hcm⟩]
  rfl

lemma validBoard_applyMove (i : Nat) (d : Direction) (bs : List SolverBlock)
    (h : i < bs.length) (hval : validBoard bs) (hcm : canMove i d bs = true) :
    validBoard (applyMove i d bs) := by
  obtain ⟨hmv, hno⟩ := (canMove_iff i d bs h).mp hcm
  obtain ⟨hg, hpw⟩ := hval
  rw [List.pairwise_iff_get] at hpw
  constructor
  · intro b hb
    obtain ⟨⟨j, hj⟩, rfl⟩ := List.mem_iff_get.mp hb
    have hj2 : j < bs.length := by simpa [applyMove] using hj
    by_cases hji : j = i
    · subst hji
      rw [get_applyMove_self j d bs hj2]
      exact hmv
    · rw [get_applyMove_ne i d bs j hj2 hji]
      exact hg _ (List.get_mem _ _ _)
  · rw [List.pairwise_iff_get]
    intro ⟨j1, hj1⟩ ⟨j2, hj2⟩ hlt
    simp only [Fin.mk_lt_mk] at hlt
    have hj1b : j1 < bs.length := by simpa [applyMove] using hj1
    have hj2b : j2 < bs.length := by simpa [applyMove] using hj2
    by_cases h1i : j1 = i
    · subst h1i
      have h2i : j2 ≠ j1 := by omega
      rw [get_applyMove_self j1 d bs hj1b, get_applyMove_ne j1 d bs j2 hj2b h2i]
      exact hno j2 hj2b h2i
    · rw [get_applyMove_ne i d bs j1 hj1b h1i]
      by_cases h2i : j2 = i
      · subst h2i
        rw [get_applyMove_self j2 d bs hj2b]
        exact overlapRect_symm_not _ _ (hno j1 hj1b h1i)
      · rw [get_applyMove_ne i d bs j2 hj2b h2i]
        exact hpw ⟨j1, hj1b⟩ ⟨j2, hj2b⟩ (by simpa using hlt)

lemma validBoard_replay (ms : List SimplifiedMove) (s b : List SolverBlock)
    (h : replay s ms = some b) (hval : validBoard s) : validBoard b := by
  induction ms generalizing s with
  | nil =>
    simp only [replay, Option.some_inj] at h
    rw [← h]
    exact hval
  | cons m ms ih =>
    rw [replay] at h
    by_cases hc : m.blockIndex < s.length ∧ canMove m.blockIndex m.direction s = true
    · rw [if_pos hc] at h
      exact ih _ h (validBoard_applyMove _ _ _ hc.1 hval hc.2)
    · rw [if_neg hc] at h
      cases h

lemma replayInv_step (maxDepth : Nat) (start : List SolverBlock) (cfg cfg2 : SearchConfig)
    (hstep : solveStep maxDepth cfg = StepResult.next cfg2)
    (hinv : ReplayInv start cfg) : ReplayInv start cfg2 := by
  obtain ⟨hlt, hmax, hexp, hh⟩ := solveStep_next_elim maxDepth cfg cfg2 hstep
  obtain ⟨news, hq2, hnews, -, -, -, -⟩ :=
    expandPairs_inr_spec maxDepth _ _ _ _ _ _
      (fun p hp => (mem_pairsFor _ p.1 p.2).mp (by simpa using hp)) hexp
  intro e he
  rw [hq2] at he
  rcases List.mem_append.mp he with he2 | he2
  · exact hinv e he2
  · obtain ⟨i, d, hi, hcm, hb, hp, -, -, -⟩ := hnews e he2
    rw [hb, hp]
    exact replay_snoc start _ _ ⟨i, d⟩
      (hinv _ (List.get_mem _ _ _)) hi hcm

lemma validInv_step (maxDepth : Nat) (cfg cfg2 : SearchConfig)
    (hstep : solveStep maxDepth cfg = StepResult.next cfg2)
    (hinv : ValidInv cfg) : ValidInv cfg2 := by
  obtain ⟨hlt, hmax, hexp, hh⟩ := solveStep_next_elim maxDepth cfg cfg2 hstep
  obtain ⟨news, hq2, hnews, -, -, -, -⟩ :=
    expandPairs_inr_spec maxDepth _ _ _ _ _ _
      (fun p hp => (mem_pairsFor _ p.1 p.2).mp (by simpa using hp)) hexp
  intro e he
  rw [hq2] at he
  rcases List.mem_append.mp he with he2 | he2
  · exact hinv e he2
  · obtain ⟨i, d, hi, hcm, hb, -, -, -, -⟩ := hnews e he2
    rw [hb]
    exact validBoard_applyMove i d _ hi (hinv _ (List.get_mem _ _ _)) hcm

lemma keysInv_step (maxDepth : Nat) (cfg cfg2 : SearchConfig)
    (hstep : solveStep maxDepth cfg = StepResult.next cfg2)
    (hinv : KeysInv cfg) : KeysInv cfg2 := by
  obtain ⟨hlt, hmax, hexp, hh⟩ := solveStep_next_elim maxDepth cfg cfg2 hstep
  obtain ⟨news, hq2, hnews, -, -, hkeys, -⟩ :=
    expandPairs_inr_spec maxDepth _ _ _ _ _ _
      (fun p hp => (mem_pairsFor _ p.1 p.2).mp (by simpa using hp)) hexp
  exact hkeys hinv.1 hinv.2

lemma depthInv_step (maxDepth : Nat) (cfg cfg2 : SearchConfig)
    (hstep : solveStep maxDepth cfg = StepResult.next cfg2)
    (hinv : DepthInv maxDepth cfg) : DepthInv maxDepth cfg2 := by
  obtain ⟨hlt, hmax, hexp, hh⟩ := solveStep_next_elim maxDepth cfg cfg2 hstep
  obtain ⟨news, hq2, hnews, -, -, -, -⟩ :=
    expandPairs_inr_spec maxDepth _ _ _ _ _ _
      (fun p hp => (mem_pairsFor _ p.1 p.2).mp (by simpa using hp)) hexp
  intro e he
  rw [hq2] at he
  rcases List.mem_append.mp he with he2 | he2
  · exact hinv e he2
  · obtain ⟨i, d, -, -, -, -, -, hlen, -⟩ := hnews e he2
    exact hlen

lemma step_mono (maxDepth : Nat) (cfg cfg2 : SearchConfig)
    (hstep : solveStep maxDepth cfg = StepResult.next cfg2) :
    (∀ x ∈ cfg.visited, x ∈ cfg2.visited) ∧
      ∃ ext, cfg2.queue = cfg.queue ++ ext := by
  obtain ⟨hlt, hmax, hexp, hh⟩ := solveStep_next_elim maxDepth cfg cfg2 hstep
  obtain ⟨news, hq2, -, hvm, -, -, -⟩ :=
    expandPairs_inr_spec maxDepth _ _ _ _ _ _
      (fun p hp => (mem_pairsFor _ p.1 p.2).mp (by simpa using hp)) hexp
  exact ⟨hvm, news, hq2⟩

lemma iterN_add_elim (maxDepth n k : Nat) (cfg cfg2 : SearchConfig)
    (h : iterN maxDepth n cfg = some cfg2) :
    iterN maxDepth (n + k) cfg = iterN maxDepth k cfg2 := by
  induction n generalizing cfg with
  | zero =>
    injection h with h2
    rw [h2, Nat.zero_add]
  | succ n ih =>
    obtain ⟨cfgm, hstep, hiter⟩ := iterN_succ_elim maxDepth n cfg cfg2 h
    rw [Nat.succ_add, iterN, hstep]
    exact ih cfgm hiter

lemma iterN_inv (maxDepth : Nat) (P : SearchConfig → Prop)
    (hstep : ∀ cfg cfg2, solveStep maxDepth cfg = StepResult.next cfg2 → P cfg → P cfg2) :
    ∀ (n : Nat) (cfg cfg2 : SearchConfig),
      iterN maxDepth n cfg = some cfg2 → P cfg → P cfg2 := by
  intro n
  induction n with
  | zero =>
    intro cfg cfg2 h hp
    injection h with h2
    rw [← h2]
    exact hp
  | succ n ih =>
    intro cfg cfg2 h hp
    obtain ⟨cfgm, hs, hiter⟩ := iterN_succ_elim maxDepth n cfg cfg2 h
    exact ih cfgm cfg2 hiter (hstep cfg cfgm hs hp)

lemma iterN_mono (maxDepth : Nat) (n : Nat) (cfg cfg2 : SearchConfig)
    (h : iterN maxDepth n cfg = some cfg2) :
    (∀ x ∈ cfg.visited, x ∈ cfg2.visited) ∧
      ∃ ext, cfg2.queue = cfg.queue ++ ext := by
  induction n generalizing cfg with
  | zero =>
    injection h with h2
    rw [h2]
    exact ⟨fun x hx => hx, [], by simp⟩
  | succ n ih =>
    obtain ⟨cfgm, hstep, hiter⟩ := iterN_succ_elim maxDepth n cfg cfg2 h
    obtain ⟨hv1, ext1, hq1⟩ := step_mono maxDepth cfg cfgm hstep
    obtain ⟨hv2, ext2, hq2⟩ := ih cfgm hiter
    refine ⟨fun x hx => hv2 x (hv1 x hx), ext1 ++ ext2, ?_⟩
    rw [hq2, hq1, List.append_assoc]

/-! ## From findSolution back to the loop -/

lemma findSolution_some_elim (blocks : List Block) (maxDepth : Nat)
    (ps : List SimplifiedMove) (h : findSolution blocks maxDepth = some ps)
    (hns : isSolved (blocks.map toSolverBlock) = false) :
    ∃ n cfg, iterN maxDepth n (initConfig blocks) = some cfg ∧
      solveStep maxDepth cfg = StepResult.done (some ps) := by
  unfold findSolution findSolutionFuel at h
  rw [if_neg (by simp [hns])] at h
  exact runLoop_some_elim maxDepth _ _ ps h

lemma replayInv_init (blocks : List Block) :
    ReplayInv (blocks.map toSolverBlock) (initConfig blocks) := by
  intro e he
  simp only [initConfig, List.mem_singleton] at he
  subst he
  rfl

lemma validInv_init (blocks : List Block)
    (hval : validBoard (blocks.map toSolverBlock)) : ValidInv (initConfig blocks) := by
  intro e he
  simp only [initConfig, List.mem_singleton] at he
  subst he
  exact hval

lemma keysInv_init (blocks : List Block) : KeysInv (initConfig blocks) := by
  constructor
  · simp [initConfig]
  · intro e he
    simp only [initConfig, List.mem_singleton] at he
    subst he
    simp [initConfig]

lemma depthInv_init (blocks : List Block) (maxDepth : Nat) (hmd : 1 ≤ maxDepth) :
    DepthInv maxDepth (initConfig blocks) := by
  intro e he
  simp only [initConfig, List.mem_singleton] at he
  subst he
  simpa using hmd

lemma findSolution_replay (blocks : List Block) (maxDepth : Nat)
    (ps : List SimplifiedMove) (hres : findSolution blocks maxDepth = some ps) :
    ∃ fin : List SolverBlock, replay (blocks.map toSolverBlock) ps = some fin ∧
      isSolved fin = true := by
  by_cases hsol : isSolved (blocks.map toSolverBlock) = true
  · have heq : findSolution blocks maxDepth = some [] := by
      unfold findSolution findSolutionFuel
      rw [if_pos hsol]
    rw [heq] at hres
    injection hres with h2
    subst h2
    exact ⟨blocks.map toSolverBlock, rfl, hsol⟩
  · obtain ⟨n, cfg, hiter, hdone⟩ :=
      findSolution_some_elim blocks maxDepth ps hres (by simpa using hsol)
    have hri : ReplayInv (blocks.map toSolverBlock) cfg :=
      iterN_inv maxDepth _ (replayInv_step maxDepth _) n _ cfg hiter (replayInv_init blocks)
    obtain ⟨hlt, hmax, hexp⟩ := solveStep_done_some_elim maxDepth cfg ps hdone
    obtain ⟨i, d, hmem, hcm, hsolv, hps, -⟩ :=
      expandPairs_inl_spec maxDepth _ _ _ _ ps hexp
    have hi : i < (cfg.queue.get ⟨cfg.head, hlt⟩).blocks.length :=
      (mem_pairsFor _ i d).mp hmem
    refine ⟨applyMove i d (cfg.queue.get ⟨cfg.head, hlt⟩).blocks, ?_, hsolv⟩
    rw [hps]
    exact replay_snoc _ _ _ ⟨i, d⟩ (hri _ (List.get_mem _ _ _)) hi hcm

/-! ## Claims C1, C5, C6 -/

/-- C1 (soundness): for a valid input board, if `findSolution` returns a
non-null, non-empty move list, then replaying it from the input board —
indices resolved against the input list, each move checked with `canMove` —
is legal move-by-move, and the final board satisfies the goal predicate
`isSolved` (the King's top-left at (1, 3)). -/
theorem claim_C1_soundness (blocks : List Block) (maxDepth : Nat)
    (ps : List SimplifiedMove)
    (hval : validBoard (blocks.map toSolverBlock))
    (hres : findSolution blocks maxDepth = some ps) (hne : ps ≠ []) :
    ∃ fin : List SolverBlock, replay (blocks.map toSolverBlock) ps = some fin ∧
      isSolved fin = true :=
  findSolution_replay blocks maxDepth ps hres

/-- Witness for C1: on the one-King fixture the solver returns
`[{blockIndex 0, DOWN}]`, and replaying it reaches a solved board. -/
theorem claim_C1_witness :
    ∃ fin : List SolverBlock,
      replay (exKing.map toSolverBlock) [⟨0, Direction.DOWN⟩] = some fin ∧
      isSolved fin = true :=
  claim_C1_soundness exKing 200 [⟨0, Direction.DOWN⟩] ⟨by decide, by decide⟩
    (by decide) (by decide)

/-- C5 (invariant preservation): starting from a valid board, every state in
the queue at any point of the search has pairwise non-overlapping, in-grid
pieces, and the state whose path is returned is valid as well. -/
theorem claim_C5_invariant (blocks : List Block) (maxDepth : Nat)
    (hval : validBoard (blocks.map toSolverBlock)) :
    (∀ (n : Nat) (cfg : SearchConfig), iterN maxDepth n (initConfig blocks) = some cfg →
      ∀ e ∈ cfg.queue, validBoard e.blocks) ∧
    (∀ ps : List SimplifiedMove, findSolution blocks maxDepth = some ps →
      ∃ fin : List SolverBlock, replay (blocks.map toSolverBlock) ps = some fin ∧
        validBoard fin) := by
  constructor
  · intro n cfg hiter
    exact iterN_inv maxDepth ValidInv (validInv_step maxDepth) n _ cfg hiter
      (validInv_init blocks hval)
  · intro ps hres
    obtain ⟨fin, hrep, -⟩ := findSolution_replay blocks maxDepth ps hres
    exact ⟨fin, hrep, validBoard_replay ps _ fin hrep hval⟩

/-- Witness for C5: on the one-King fixture, the returned single-move path
replays to a valid board. -/
theorem claim_C5_witness :
    ∃ fin : List SolverBlock,
      replay (exKing.map toSolverBlock) [⟨0, Direction.DOWN⟩] = some fin ∧
      validBoard fin :=
  (claim_C5_invariant exKing 200 ⟨by decide, by decide⟩).2
    [⟨0, Direction.DOWN⟩] (by decide)

/-- C6 (no duplicate enqueue): at every point of one `findSolution` call, no
canonical key occurs twice in the queue, every queued key is in the visited
set, and along the run the visited set only grows while the queue is
append-only. -/
theorem claim_C6_no_duplicate (blocks : List Block) (maxDepth : Nat) :
    (∀ (n : Nat) (cfg : SearchConfig), iterN maxDepth n (initConfig blocks) = some cfg →
      (cfg.queue.map fun e => encodeState e.blocks).Nodup ∧
      ∀ e ∈ cfg.queue, encodeState e.blocks ∈ cfg.visited) ∧
    (∀ (n k : Nat) (cfg cfg2 : SearchConfig),
      iterN maxDepth n (initConfig blocks) = some cfg →
      iterN maxDepth (n + k) (initConfig blocks) = some cfg2 →
      (∀ x ∈ cfg.visited, x ∈ cfg2.visited) ∧
      ∃ ext, cfg2.queue = cfg.queue ++ ext) := by
  constructor
  · intro n cfg hiter
    exact iterN_inv maxDepth KeysInv (keysInv_step maxDepth) n _ cfg hiter
      (keysInv_init blocks)
  · intro n k cfg cfg2 hiter hiter2
    rw [iterN_add_elim maxDepth n k _ cfg hiter] at hiter2
    exact iterN_mono maxDepth k cfg cfg2 hiter2

/-- Witness for C6: the initial configuration of the one-King fixture
satisfies the key invariant. -/
theorem claim_C6_witness :
    ((initConfig exKing).queue.map fun e => encodeState e.blocks).Nodup ∧
      ∀ e ∈ (initConfig exKing).queue, encodeState e.blocks ∈ (initConfig exKing).visited :=
  (claim_C6_no_duplicate exKing 200).1 0 (initConfig exKing) rfl

/-! ## Claim C8: termination and resource bounds -/

lemma solveStep_guard (maxDepth : Nat) (cfg : SearchConfig)
    (h : MAX_ITERATIONS < cfg.head) : solveStep maxDepth cfg = StepResult.done none := by
  unfold solveStep
  by_cases hlt : cfg.head < cfg.queue.length
  · rw [dif_pos hlt, if_pos h]
  · rw [dif_neg hlt]

lemma runLoop_fuel_succ (maxDepth : Nat) :
    ∀ (fuel : Nat) (cfg : SearchConfig), MAX_ITERATIONS + 2 ≤ cfg.head + fuel →
      runLoop maxDepth (fuel + 1) cfg = runLoop maxDepth fuel cfg := by
  intro fuel
  induction fuel with
  | zero =>
    intro cfg hf
    have hz : runLoop maxDepth 0 cfg = none := rfl
    rw [Nat.zero_add, hz, runLoop, solveStep_guard maxDepth cfg (by omega)]
  | succ fuel ih =>
    intro cfg hf
    rw [runLoop]
    conv_rhs => rw [runLoop]
    rcases hstep : solveStep maxDepth cfg with r | cfg2
    · rfl
    · obtain ⟨-, -, -, hh⟩ := solveStep_next_elim maxDepth cfg cfg2 hstep
      exact ih cfg2 (by omega)

lemma runLoop_fuel_ge (maxDepth fuel k : Nat) (cfg : SearchConfig)
    (h : MAX_ITERATIONS + 2 ≤ cfg.head + fuel) :
    runLoop maxDepth (fuel + k) cfg = runLoop maxDepth fuel cfg := by
  induction k with
  | zero => rfl
  | succ k ih =>
    rw [show fuel + (k + 1) = (fuel + k) + 1 by omega,
      runLoop_fuel_succ maxDepth (fuel + k) cfg (by omega)]
    exact ih

lemma findSolution_length_le (blocks : List Block) (maxDepth : Nat)
    (ps : List SimplifiedMove) (hmd : 1 ≤ maxDepth)
    (h : findSolution blocks maxDepth = some ps) : ps.length ≤ maxDepth := by
  by_cases hsol : isSolved (blocks.map toSolverBlock) = true
  · have heq : findSolution blocks maxDepth = some [] := by
      unfold findSolution findSolutionFuel
      rw [if_pos hsol]
    rw [heq] at h
    injection h with h2
    subst h2
    simpa using hmd
  · obtain ⟨n, cfg, hiter, hdone⟩ :=
      findSolution_some_elim blocks maxDepth ps h (by simpa using hsol)
    have hdi : DepthInv maxDepth cfg :=
      iterN_inv maxDepth _ (depthInv_step maxDepth) n _ cfg hiter
        (depthInv_init blocks maxDepth hmd)
    obtain ⟨hlt, hmax, hexp⟩ := solveStep_done_some_elim maxDepth cfg ps hdone
    obtain ⟨i, d, hmem, -, -, hps, -⟩ :=
      expandPairs_inl_spec maxDepth _ _ _ _ ps hexp
    have hcur := hdi _ (List.get_mem cfg.queue cfg.head hlt)
    rw [hps]
    simp only [List.length_append, List.length_cons, List.length_nil]
    omega

/-- C8 (corrected): `findSolution` takes an optional `maxDepth` (default
200), while the iteration budget is the fixed internal constant
`MAX_ITERATIONS = 50000`, not a caller-supplied parameter.  The `while` loop
always terminates — any fuel of at least `MAX_ITERATIONS + 2` iterations
gives the same answer, because the loop aborts with `null` once `head`
exceeds the budget or the frontier empties — and for `maxDepth ≥ 1` no
returned solution is longer than `maxDepth`. -/
theorem claim_C8_bounds (blocks : List Block) (maxDepth : Nat) (hmd : 1 ≤ maxDepth) :
    (∀ fuel, MAX_ITERATIONS + 2 ≤ fuel →
      findSolutionFuel blocks maxDepth fuel = findSolution blocks maxDepth) ∧
    (∀ ps, findSolution blocks maxDepth = some ps → ps.length ≤ maxDepth) := by
  constructor
  · intro fuel hfuel
    unfold findSolution findSolutionFuel
    by_cases hsol : isSolved (blocks.map toSolverBlock) = true
    · rw [if_pos hsol, if_pos hsol]
    · rw [if_neg hsol, if_neg hsol]
      rw [show fuel = (MAX_ITERATIONS + 2) + (fuel - (MAX_ITERATIONS + 2)) by omega]
      exact runLoop_fuel_ge maxDepth (MAX_ITERATIONS + 2) _ (initConfig blocks)
        (by simp [initConfig])
  · intro ps hres
    exact findSolution_length_le blocks maxDepth ps hmd hres

/-- Witness for C8: at `maxDepth = 1` on the one-King fixture, the returned
single-move solution respects the depth bound. -/
theorem claim_C8_witness :
    ([(⟨0, Direction.DOWN⟩ : SimplifiedMove)]).length ≤ 1 :=
  (claim_C8_bounds exKing 1 (by decide)).2 [⟨0, Direction.DOWN⟩] (by decide)

/-- Counterexample to C8 as stated: with `maxDepth = 0` the solver still
returns a length-1 solution (the goal test precedes the depth test), so "no
returned solution is longer than maxDepth" fails at `maxDepth = 0`; and the
iteration budget is not an input at all. -/
theorem claim_C8_counterexample :
    findSolution exKing 0 = some [⟨0, Direction.DOWN⟩] ∧
    ¬ ([(⟨0, Direction.DOWN⟩ : SimplifiedMove)]).length ≤ 0 :=
  ⟨by decide, by decide⟩

/-! ## Good boards: transport along canonical-key equality -/

lemma goodBoard_replay (start b : List SolverBlock) (ms : List SimplifiedMove)
    (h : replay start ms = some b) (hval : validBoard start) : GoodBoard start b :=
  ⟨validBoard_replay ms start b h hval, map_shape_replay ms start b h⟩

lemma goodBoard_applyMove (start b : List SolverBlock) (i : Nat) (d : Direction)
    (hg : GoodBoard start b) (hi : i < b.length) (hcm : canMove i d b = true) :
    GoodBoard start (applyMove i d b) :=
  ⟨validBoard_applyMove i d b hi hg.1 hcm, by rw [map_shape_applyMove]; exact hg.2⟩

lemma goodBoard_std (start b : List SolverBlock) (hstd : ∀ x ∈ start, stdDims x)
    (hg : GoodBoard start b) : ∀ x ∈ b, stdDims x :=
  stdDims_of_map_shape_eq start b hg.2.symm hstd

lemma goodBoard_oneKing (start b : List SolverBlock) (hkg : oneKing start)
    (hg : GoodBoard start b) : oneKing b :=
  oneKing_of_map_shape_eq start b hg.2.symm hkg

lemma goodBoard_perm_of_encode (start b1 b2 : List SolverBlock)
    (hstd : ∀ x ∈ start, stdDims x)
    (h1 : GoodBoard start b1) (h2 : GoodBoard start b2)
    (henc : encodeState b1 = encodeState b2) : List.Perm b1 b2 :=
  perm_of_cellKind_eq b1.length b1 b2 rfl h1.1 h2.1
    (goodBoard_std start b1 hstd h1) (goodBoard_std start b2 hstd h2)
    (cellKind_iff_of_encode_eq b1 b2 h1.1 h2.1 henc)

lemma goodBoard_isSolved_eq (start b1 b2 : List SolverBlock)
    (hstd : ∀ x ∈ start, stdDims x) (hkg : oneKing start)
    (h1 : GoodBoard start b1) (h2 : GoodBoard start b2)
    (henc : encodeState b1 = encodeState b2) : isSolved b1 = isSolved b2 :=
  isSolved_eq_of_perm b1 b2 (goodBoard_oneKing start b1 hkg h1)
    (goodBoard_perm_of_encode start b1 b2 hstd h1 h2 henc)

lemma reach_goodBoard (start b : List SolverBlock) (m : Nat)
    (hr : Reach start m b) (hval : validBoard start) : GoodBoard start b := by
  obtain ⟨ms, -, hrep⟩ := hr
  exact goodBoard_replay start b ms hrep hval

lemma reach_succ_elim (start : List SolverBlock) (m : Nat) (b : List SolverBlock)
    (hr : Reach start (m + 1) b) :
    ∃ p : List SolverBlock, ∃ mv : SimplifiedMove, Reach start m p ∧
      mv.blockIndex < p.length ∧ canMove mv.blockIndex mv.direction p = true ∧
      b = applyMove mv.blockIndex mv.direction p := by
  obtain ⟨ms, hlen, hrep⟩ := hr
  have hne : ms ≠ [] := by
    intro hcon
    rw [hcon] at hlen
    cases hlen
  have hms : ms.dropLast ++ [ms.getLast hne] = ms := List.dropLast_append_getLast hne
  rw [← hms, replay_append] at hrep
  obtain ⟨p, hp, hlast⟩ := Option.bind_eq_some.mp hrep
  rw [replay] at hlast
  by_cases hc : (ms.getLast hne).blockIndex < p.length ∧
      canMove (ms.getLast hne).blockIndex (ms.getLast hne).direction p = true
  · rw [if_pos hc] at hlast
    simp only [replay, Option.some_inj] at hlast
    refine ⟨p, ms.getLast hne, ⟨ms.dropLast, ?_, hp⟩, hc.1, hc.2, hlast.symm⟩
    rw [List.length_dropLast, hlen]
    rfl
  · rw [if_neg hc] at hlast
    cases hlast

lemma bfs_complete (maxDepth : Nat) (start : List SolverBlock)
    (hval : validBoard start) (hstd : ∀ x ∈ start, stdDims x) (hkg : oneKing start)
    (hns : isSolved start = false) (cfg : SearchConfig)
    (hinv : SearchInv maxDepth start cfg) :
    ∀ (m : Nat) (b : List SolverBlock), Reach start m b → m < maxDepth →
      (∀ hh : cfg.head < cfg.queue.length,
        m ≤ (cfg.queue.get ⟨cfg.head, hh⟩).path.length) →
      isSolved b = false ∧ encodeState b ∈ cfg.visited := by
  intro m
  induction m with
  | zero =>
    intro b hr hmd hguard
    obtain ⟨ms, hlen, hrep⟩ := hr
    have hms : ms = [] := List.length_eq_zero.mp hlen
    subst hms
    simp only [replay, Option.some_inj] at hrep
    subst hrep
    obtain ⟨rest, hq⟩ := hinv.root
    refine ⟨hns, ?_⟩
    have hroot : (⟨start, []⟩ : SolverState) ∈ cfg.queue := by
      rw [hq]
      exact List.mem_cons_self _ _
    exact hinv.keys.2 _ hroot
  | succ m ih =>
    intro b hr hmd hguard
    obtain ⟨p, mv, hrp, hidx, hcm, hb⟩ := reach_succ_elim start m b hr
    obtain ⟨hpns, hpvis⟩ := ih p hrp (by omega) (fun hh => by have := hguard hh; omega)
    obtain ⟨j, hj, hkey⟩ := hinv.visitedKeys _ hpvis
    have hnodes := hinv.nodes _ (List.get_mem cfg.queue j hj)
    have hge : GoodBoard start (cfg.queue.get ⟨j, hj⟩).blocks :=
      goodBoard_replay start _ _ hnodes.1 hval
    have hgp : GoodBoard start p := reach_goodBoard start p m hrp hval
    have hmin : (cfg.queue.get ⟨j, hj⟩).path.length ≤ m :=
      hinv.minimal j hj m p hrp hkey.symm
    have hproc : j < cfg.head := by
      by_cases hh : cfg.head < cfg.queue.length
      · by_contra hcon
        push_neg at hcon
        have h1 := hinv.mono cfg.head j hh hj hcon
        have h2 := hguard hh
        omega
      · have := hinv.hlen
        omega
    have hperm : List.Perm (cfg.queue.get ⟨j, hj⟩).blocks p :=
      goodBoard_perm_of_encode start _ p hstd hge hgp hkey
    have hvmem : p.get ⟨mv.blockIndex, hidx⟩ ∈ (cfg.queue.get ⟨j, hj⟩).blocks :=
      hperm.mem_iff.mpr (List.get_mem _ _ _)
    obtain ⟨⟨i1, hi1⟩, hgeti⟩ := List.mem_iff_get.mp hvmem
    have hcm1 : canMove i1 mv.direction (cfg.queue.get ⟨j, hj⟩).blocks = true := by
      rw [canMove_eq_of_perm _ p i1 mv.blockIndex mv.direction hi1 hidx hperm hgeti]
      exact hcm
    have hsperm : List.Perm (applyMove i1 mv.direction (cfg.queue.get ⟨j, hj⟩).blocks)
        (applyMove mv.blockIndex mv.direction p) :=
      applyMove_perm_of_perm _ p i1 mv.blockIndex mv.direction hi1 hidx hperm hgeti
    have hgs1 : GoodBoard start (applyMove i1 mv.direction (cfg.queue.get ⟨j, hj⟩).blocks) :=
      goodBoard_applyMove start _ i1 mv.direction hge hi1 hcm1
    have hgb : GoodBoard start b := by
      rw [hb]
      exact goodBoard_applyMove start p _ _ hgp hidx hcm
    have hkeyeq : encodeState (applyMove i1 mv.direction (cfg.queue.get ⟨j, hj⟩).blocks) =
        encodeState b := by
      rw [hb]
      exact encode_eq_of_perm _ _ hgs1.1 hsperm
    have hkvis : encodeState (applyMove i1 mv.direction (cfg.queue.get ⟨j, hj⟩).blocks) ∈
        cfg.visited := by
      apply hinv.processed j hj hproc i1 hi1 mv.direction hcm1
      right
      omega
    have hsolved_eq : isSolved (applyMove i1 mv.direction (cfg.queue.get ⟨j, hj⟩).blocks) =
        isSolved b :=
      goodBoard_isSolved_eq start _ b hstd hkg hgs1 hgb hkeyeq
    constructor
    · by_contra hcon
      rw [Bool.not_eq_false] at hcon
      obtain ⟨j2, hj2, hkey2⟩ := hinv.visitedKeys _ hkvis
      have hn2 := hinv.nodes _ (List.get_mem cfg.queue j2 hj2)
      have hg2 : GoodBoard start (cfg.queue.get ⟨j2, hj2⟩).blocks :=
        goodBoard_replay start _ _ hn2.1 hval
      have heq2 : isSolved (cfg.queue.get ⟨j2, hj2⟩).blocks =
          isSolved (applyMove i1 mv.direction (cfg.queue.get ⟨j, hj⟩).blocks) :=
        goodBoard_isSolved_eq start _ _ hstd hkg hg2 hgs1 hkey2
      rw [hn2.2.1, hsolved_eq, hcon] at heq2
      cases heq2
    · rw [← hkeyeq]
      exact hkvis

lemma get_append_left_of_lt (l1 l2 : List SolverState) (i : Nat)
    (hi : i < l1.length) (hi2 : i < (l1 ++ l2).length) :
    (l1 ++ l2).get ⟨i, hi2⟩ = l1.get ⟨i, hi⟩ := by
  simp only [List.get_eq_getElem]
  exact List.getElem_append_left hi

lemma get_append_right_mem (l1 l2 : List SolverState) (i : Nat)
    (hle : l1.length ≤ i) (hi2 : i < (l1 ++ l2).length) :
    (l1 ++ l2).get ⟨i, hi2⟩ ∈ l2 := by
  simp only [List.get_eq_getElem]
  rw [List.getElem_append_right hle]
  exact List.getElem_mem _

lemma searchInv_init (maxDepth : Nat) (blocks : List Block)
    (hns : isSolved (blocks.map toSolverBlock) = false) (hmd : 1 ≤ maxDepth) :
    SearchInv maxDepth (blocks.map toSolverBlock) (initConfig blocks) := by
  constructor
  · show (0 : Nat) ≤ _
    exact Nat.zero_le _
  · exact ⟨[], rfl⟩
  · intro e he
    simp only [initConfig, List.mem_singleton] at he
    subst he
    exact ⟨rfl, hns, by simpa using hmd⟩
  · intro i j hi hj hij
    simp only [initConfig, List.length_singleton] at hi hj
    have hi0 : i = 0 := by omega
    have hj0 : j = 0 := by omega
    subst hi0
    subst hj0
    exact le_refl _
  · intro hh e he
    simp only [initConfig, List.mem_singleton] at he
    subst he
    simp
  · exact keysInv_init blocks
  · intro k hk
    simp only [initConfig, List.mem_singleton] at hk
    exact ⟨0, by simp [initConfig], by simp [initConfig, hk]⟩
  · intro j hj hcon
    simp only [initConfig] at hcon
    omega
  · intro j hj m b hr hkey
    simp only [initConfig, List.length_singleton] at hj
    have hj0 : j = 0 := by omega
    subst hj0
    simp [initConfig]

lemma getDq_eq_get (l : List SolverState) (i : Nat) (h : i < l.length) :
    l.getD i default = l.get ⟨i, h⟩ :=
  List.getD_eq_getElem l default h

lemma getDq_append_left (l1 l2 : List SolverState) (i : Nat) (h : i < l1.length) :
    (l1 ++ l2).getD i default = l1.getD i default := by
  rw [List.getD_eq_getElem _ _ (by rw [List.length_append]; omega),
    List.getD_eq_getElem _ _ h]
  exact List.getElem_append_left h

lemma getDq_append_right (l1 l2 : List SolverState) (i : Nat) (h1 : l1.length ≤ i)
    (h2 : i < (l1 ++ l2).length) : (l1 ++ l2).getD i default ∈ l2 := by
  rw [List.getD_eq_getElem _ _ h2]
  rw [List.getElem_append_right h1]
  exact List.getElem_mem _

lemma searchInv_step (maxDepth : Nat) (start : List SolverBlock)
    (hval : validBoard start) (hstd : ∀ x ∈ start, stdDims x) (hkg : oneKing start)
    (hns : isSolved start = false) (cfg cfg2 : SearchConfig)
    (hstep : solveStep maxDepth cfg = StepResult.next cfg2)
    (hinv : SearchInv maxDepth start cfg) : SearchInv maxDepth start cfg2 := by
  obtain ⟨hlt, hmax, hexp, hh2⟩ := solveStep_next_elim maxDepth cfg cfg2 hstep
  obtain ⟨news, hq2, hnews, hvmono, hv2char, hkeysImp, hperpair⟩ :=
    expandPairs_inr_spec maxDepth _ _ _ _ _ _
      (fun pr hpr => (mem_pairsFor _ pr.1 pr.2).mp (by simpa using hpr)) hexp
  have hcurmem : cfg.queue.get ⟨cfg.head, hlt⟩ ∈ cfg.queue := List.get_mem _ _ _
  have hcurnode := hinv.nodes _ hcurmem
  have hnews_len : ∀ e ∈ news,
      e.path.length = (cfg.queue.get ⟨cfg.head, hlt⟩).path.length + 1 := by
    intro e he
    obtain ⟨i, d, -, -, -, hp, -, -, -⟩ := hnews e he
    rw [hp]
    simp
  have hlen2 : cfg2.queue.length = cfg.queue.length + news.length := by
    rw [hq2, List.length_append]
  have hget_old : ∀ (idx : Nat) (hidx : idx < cfg.queue.length)
      (hidx2 : idx < cfg2.queue.length),
      cfg2.queue.get ⟨idx, hidx2⟩ = cfg.queue.get ⟨idx, hidx⟩ := by
    intro idx hidx hidx2
    rw [← getDq_eq_get cfg2.queue idx hidx2, ← getDq_eq_get cfg.queue idx hidx, hq2,
      getDq_append_left cfg.queue news idx hidx]
  have hget_new : ∀ (idx : Nat) (hidx2 : idx < cfg2.queue.length),
      cfg.queue.length ≤ idx → cfg2.queue.get ⟨idx, hidx2⟩ ∈ news := by
    intro idx hidx2 hge
    rw [← getDq_eq_get cfg2.queue idx hidx2, hq2]
    exact getDq_append_right cfg.queue news idx hge (by rw [← hq2]; exact hidx2)
  constructor
  · -- hlen
    rw [hh2, hlen2]
    omega
  · -- root
    obtain ⟨rest, hq⟩ := hinv.root
    exact ⟨rest ++ news, by rw [hq2, hq, List.cons_append]⟩
  · -- nodes
    intro e he
    rw [hq2] at he
    rcases List.mem_append.mp he with he2 | he2
    · exact hinv.nodes e he2
    · obtain ⟨i, d, hi, hcm, hb, hp, hsol, hdep, -⟩ := hnews e he2
      refine ⟨?_, hsol, hdep⟩
      rw [hb, hp]
      exact replay_snoc start _ _ ⟨i, d⟩ hcurnode.1 hi hcm
  · -- mono
    intro i j hi hj hij
    rcases Nat.lt_or_ge j cfg.queue.length with hjq | hjq
    · have hiq : i < cfg.queue.length := by omega
      rw [hget_old i hiq hi, hget_old j hjq hj]
      exact hinv.mono i j hiq hjq hij
    · rcases Nat.lt_or_ge i cfg.queue.length with hiq | hiq
      · rw [hget_old i hiq hi, hnews_len _ (hget_new j hj hjq)]
        exact hinv.depthBound hlt _ (List.get_mem _ _ _)
      · rw [hnews_len _ (hget_new i hi hiq), hnews_len _ (hget_new j hj hjq)]
  · -- depthBound
    intro hh e he
    have hD : (cfg.queue.get ⟨cfg.head, hlt⟩).path.length ≤
        (cfg2.queue.get ⟨cfg2.head, hh⟩).path.length := by
      rcases Nat.lt_or_ge cfg2.head cfg.queue.length with hhq | hhq
      · rw [hget_old cfg2.head hhq hh]
        exact hinv.mono cfg.head cfg2.head hlt hhq (by omega)
      · rw [hnews_len _ (hget_new cfg2.head hh hhq)]
        omega
    rw [hq2] at he
    rcases List.mem_append.mp he with he2 | he2
    · have := hinv.depthBound hlt e he2
      omega
    · have := hnews_len e he2
      omega
  · -- keys
    exact hkeysImp hinv.keys.1 hinv.keys.2
  · -- visitedKeys
    intro k hk
    rcases hv2char k hk with hk2 | hk2
    · obtain ⟨j, hj, hkey⟩ := hinv.visitedKeys k hk2
      have hj2 : j < cfg2.queue.length := by omega
      refine ⟨j, hj2, ?_⟩
      rw [hget_old j hj hj2]
      exact hkey
    · obtain ⟨e, he, hkey⟩ := hk2
      have hmem2 : e ∈ cfg2.queue := by
        rw [hq2]
        exact List.mem_append_right _ he
      obtain ⟨⟨j, hj⟩, hget⟩ := List.mem_iff_get.mp hmem2
      refine ⟨j, hj, ?_⟩
      rw [hget]
      exact hkey
  · -- processed
    intro j hj hjlt i hi d hcm hdisj
    rw [hh2] at hjlt
    rcases Nat.lt_or_ge j cfg.head with hjh | hjh
    · have hjq : j < cfg.queue.length := by omega
      rw [hget_old j hjq hj] at hi hcm hdisj ⊢
      exact hvmono _ (hinv.processed j hjq hjh i hi d hcm hdisj)
    · have hjh2 : j = cfg.head := by omega
      subst hjh2
      rw [hget_old cfg.head hlt hj] at hi hcm hdisj ⊢
      exact hperpair i d ((mem_pairsFor _ i d).mpr hi) hcm hdisj
  · -- minimal
    intro j hj m b hr hkey
    rcases Nat.lt_or_ge j cfg.queue.length with hjq | hjq
    · rw [hget_old j hjq hj] at hkey ⊢
      exact hinv.minimal j hjq m b hr hkey
    · have hmem2 := hget_new j hj hjq
      rw [hnews_len _ hmem2]
      obtain ⟨i, d, hi, hcm, hb, hp, hsol, hdep, hnv⟩ := hnews _ hmem2
      by_contra hcon
      push_neg at hcon
      have hmle : m ≤ (cfg.queue.get ⟨cfg.head, hlt⟩).path.length := by omega
      have hcomp := bfs_complete maxDepth start hval hstd hkg hns cfg hinv m b hr
        (by have := hcurnode.2.2; omega) (fun hh => hmle)
      apply hnv
      rw [← hkey]
      exact hcomp.2

/-- C2 (optimality): for a valid input board — standard per-kind dimensions,
exactly one King, pieces in-grid and non-overlapping — with a positive depth
bound, if `findSolution` returns a move list then that list solves the board
and no strictly shorter legal move sequence from the same board reaches the
goal: the returned length is the true shortest-solution length. -/
theorem claim_C2_optimality (blocks : List Block) (maxDepth : Nat)
    (hval : validBoard (blocks.map toSolverBlock))
    (hstd : ∀ x ∈ blocks.map toSolverBlock, stdDims x)
    (hkg : oneKing (blocks.map toSolverBlock))
    (hmd : 1 ≤ maxDepth) (ps : List SimplifiedMove)
    (hres : findSolution blocks maxDepth = some ps) :
    (∃ fin : List SolverBlock, replay (blocks.map toSolverBlock) ps = some fin ∧
      isSolved fin = true) ∧
    (∀ (qs : List SimplifiedMove) (fin : List SolverBlock),
      replay (blocks.map toSolverBlock) qs = some fin → isSolved fin = true →
      ps.length ≤ qs.length) := by
  refine ⟨findSolution_replay blocks maxDepth ps hres, ?_⟩
  intro qs fin hqs hfin
  by_cases hsol : isSolved (blocks.map toSolverBlock) = true
  · have heq : findSolution blocks maxDepth = some [] := by
      unfold findSolution findSolutionFuel
      rw [if_pos hsol]
    rw [heq] at hres
    injection hres with h2
    subst h2
    simp
  · have hns : isSolved (blocks.map toSolverBlock) = false := by simpa using hsol
    obtain ⟨n, cfg, hiter, hdone⟩ := findSolution_some_elim blocks maxDepth ps hres hns
    have hinv : SearchInv maxDepth (blocks.map toSolverBlock) cfg :=
      iterN_inv maxDepth _ (searchInv_step maxDepth _ hval hstd hkg hns) n _ cfg hiter
        (searchInv_init maxDepth blocks hns hmd)
    obtain ⟨hlt, hmax, hexp⟩ := solveStep_done_some_elim maxDepth cfg ps hdone
    obtain ⟨i, d, hmem, hcm, hsolv, hps, -⟩ :=
      expandPairs_inl_spec maxDepth _ _ _ _ ps hexp
    have hlenps : ps.length = (cfg.queue.get ⟨cfg.head, hlt⟩).path.length + 1 := by
      rw [hps]
      simp
    by_contra hcon
    push_neg at hcon
    have hreach : Reach (blocks.map toSolverBlock) qs.length fin := ⟨qs, rfl, hqs⟩
    have hqD : qs.length ≤ (cfg.queue.get ⟨cfg.head, hlt⟩).path.length := by omega
    have hcur := hinv.nodes _ (List.get_mem cfg.queue cfg.head hlt)
    have hcomp := bfs_complete maxDepth _ hval hstd hkg hns cfg hinv qs.length fin hreach
      (by have := hcur.2.2; omega) (fun hh => hqD)
    rw [hcomp.1] at hfin
    cases hfin

/-- Witness for C2 on the one-King fixture: the returned one-move solution
is no longer than the explicit one-move solution `[DOWN]`. -/
theorem claim_C2_witness :
    ([(⟨0, Direction.DOWN⟩ : SimplifiedMove)]).length ≤
      ([(⟨0, Direction.DOWN⟩ : SimplifiedMove)]).length :=
  (claim_C2_optimality exKing 200 ⟨by decide, by decide⟩ (by decide) (by decide)
      (by decide) [⟨0, Direction.DOWN⟩] (by decide)).2
    [⟨0, Direction.DOWN⟩] [⟨BlockType.KING, 1, 3, 2, 2⟩] (by decide) (by decide)
